import Mathlib

/-!
# Verification of the NATSimTools symmetric-NAT simulator

Shallow embedding of the core of `simulation.py` (repository
tvaleev/NATSimTools): the symmetric NAT allocator (`SymmetricNat` and its
incremental subclass `SymmetricIncrementalNat`), the probabilistic-rounding
helper `probRound` and the `SimpleStrategy` offset table, and the round loop
of `NatSimulation.simulation`.

Modelling conventions:
* Python `dict`s are embedded as association lists with unique keys
  (`lookupA` / `updateA` / `eraseA` mirror `d.get`, `d[k] = v`, `del d[k]`).
* The `heapq` expiry heap is embedded as a list kept sorted by the
  `(lastAccessTime, port)` key; the program only observes the heap through
  `heap[0]`, `heappop`, `heappush` and `len`, and in every reachable state
  the `(time, port)` keys of distinct entries differ, so the sorted list has
  exactly the observable behaviour of the Python heap.
* Machine floats used as times are embedded as `Int` (the engine only ever
  passes integer times to the NAT layer); strategy arithmetic over floats is
  embedded as `Rat`.
* The two stochastic points of the embedded code (`random.randint(0, 100) == 0`
  deciding the opportunistic `cleanHeap`, and `random.random() <= x - flr`
  inside `probRound`) are threaded as explicit boolean oracles.
* Python exceptions are embedded as `Except`-style results; the state at the
  moment the exception escapes is returned alongside, because the Python
  objects keep their mutations.
-/

/-- `Quartet` from simulation.py: (srcIP, srcPort, dstIP, dstPort), compared
field by field (`__eq__`/`__cmp__`). Addresses and ports are embedded as
integers (the engine passes the party index and integer ports). -/
structure Quartet where
  srcIP : Int
  srcPort : Int
  dstIP : Int
  dstPort : Int
  deriving DecidableEq, Repr

/-- Association-list lookup: `d.get(k)` / `k in d` on a Python dict. -/
def lookupA {α β : Type} [DecidableEq α] : List (α × β) → α → Option β
  | [], _ => none
  | (k, v) :: rest, a => if k = a then some v else lookupA rest a

/-- Association-list update: `d[k] = v` on a Python dict (replaces the
existing binding in place, otherwise appends a new one). -/
def updateA {α β : Type} [DecidableEq α] : List (α × β) → α → β → List (α × β)
  | [], a, b => [(a, b)]
  | (k, v) :: rest, a, b =>
      if k = a then (k, b) :: rest else (k, v) :: updateA rest a b

/-- Association-list deletion: `del d[k]` on a Python dict (keys are unique
in every reachable state, so removing the first binding is exact). -/
def eraseA {α β : Type} [DecidableEq α] : List (α × β) → α → List (α × β)
  | [], _ => []
  | (k, v) :: rest, a => if k = a then rest else (k, v) :: eraseA rest a

/-- One expiry-heap entry `(lastAccessTime, port, quartet-or-None)`. -/
abbrev HeapEntry : Type := Int × Int × Option Quartet

/-- Heap ordering key: Python compares the tuples lexicographically and in
every reachable state never reaches the third component, because the
`(time, port)` pairs of distinct live entries differ. -/
def heapKeyLE (e₁ e₂ : HeapEntry) : Bool :=
  e₁.1 < e₂.1 ∨ (e₁.1 = e₂.1 ∧ e₁.2.1 ≤ e₂.2.1)

/-- `heappush`: insert into the key-sorted list (after equal keys). -/
def heapPush : List HeapEntry → HeapEntry → List HeapEntry
  | [], e => [e]
  | x :: rest, e => if heapKeyLE x e then x :: heapPush rest e else e :: x :: rest

/-- State of a `SymmetricIncrementalNat` instance: the fields of
`SymmetricNat` plus the `lastPort` cursor of the incremental policy.
`timeout` is the class attribute `Nat.timeout` (3*60*1000 ms in the
program); it is carried in the state because the operations read
`self.timeout`. -/
structure SymNat where
  /-- `allocations`: quartet -> external port. -/
  allocations : List (Quartet × Int)
  /-- `allocatedPorts`: port -> (quartet-or-None, lastAccessTime). -/
  allocatedPorts : List (Int × (Option Quartet × Int))
  /-- `expireHeap`, kept sorted by `(time, port)`. -/
  expireHeap : List HeapEntry
  /-- `pool`: the port-pool array (`list(range(1025, 65536))` after `init`). -/
  pool : List Int
  /-- `lastPort`: index into `pool` of the last allocated slot. -/
  lastPort : Nat
  /-- `timeout` (class attribute, 180000 ms; never reassigned). -/
  timeout : Int
  deriving DecidableEq, Repr

/-- Errors escaping a NAT operation: the `"Port pool exhausted"` exception,
or a Python runtime fault (`tup[1]` on `None`) on paths that are unreachable
while the bidirectional-map invariant holds. -/
inductive NatErr where
  | poolExhausted
  | pyError
  deriving DecidableEq, Repr

/-- `SymmetricNat.init`: fresh tables and the fixed pool 1025..65535. -/
def SymNat.init : SymNat :=
  { allocations := []
    allocatedPorts := []
    expireHeap := []
    pool := (List.range 64511).map (fun i => (1025 : Int) + i)
    lastPort := 0
    timeout := 3 * 60 * 1000 }

/-- `SymmetricIncrementalNat.reset`: clear the three tables and the cursor;
the pool (and the `timeout` class attribute) are untouched. -/
def SymNat.reset (s : SymNat) : SymNat :=
  { s with allocations := [], allocatedPorts := [], expireHeap := [], lastPort := 0 }

/-- The port examined by the k-th probe (1-based) of
`SymmetricIncrementalNat.peekPort` chained from the cursor:
`pool[(lastPort + k) % poolLen]`. -/
def SymNat.incProbe (s : SymNat) (k : Nat) : Int :=
  s.pool.getD ((s.lastPort + k) % s.pool.length) (-1)

/-- Result of the probe loop inside `SymmetricNat.nextFreePort`: the two
tables after the (at most one) eviction, the final value of `tries`, and
`some port` if the loop ended with `break`. -/
structure ProbeOut where
  als : List (Quartet × Int)
  aps : List (Int × (Option Quartet × Int))
  tries : Nat
  port : Option Int
  deriving DecidableEq, Repr

/-- The `while tries <= self.poolLen` loop of `SymmetricNat.nextFreePort`,
parameterized by the policy's probe sequence (`probe k` is the port returned
by the k-th `peekPort` call). `fuel` is the number of loop iterations still
allowed, `poolLen + 1 - tries` at every call. For each probed port: if it is
unallocated, break; if allocated but expired (`tup[1] + timeout < timeNow`),
delete it from both tables and break; otherwise continue probing. -/
def probeLoop (probe : Nat → Int) (timeout timeNow : Int)
    (als : List (Quartet × Int)) (aps : List (Int × (Option Quartet × Int))) :
    Nat → Nat → ProbeOut
  | tries, 0 => ⟨als, aps, tries, none⟩
  | tries, fuel + 1 =>
      let port := probe (tries + 1)
      match lookupA aps port with
      | some (oq, t) =>
          if t + timeout < timeNow then
            ⟨(match oq with
               | some q => eraseA als q
               | none => als),
             eraseA aps port, tries + 1, some port⟩
          else probeLoop probe timeout timeNow als aps (tries + 1) fuel
      | none => ⟨als, aps, tries + 1, some port⟩

/-- `SymmetricNat.nextFreePort` for the incremental policy: run the probe
loop, raise `"Port pool exhausted"` when `tries >= poolLen` (or when no
probe ever broke out), and otherwise advance the cursor by `tries`
positions unless `peek` is set. Evictions performed by the probe loop
persist even when the exception is raised. -/
def SymNat.nextFreePort (s : SymNat) (timeNow : Int) (peek : Bool) :
    SymNat × Except NatErr Int :=
  let L := s.pool.length
  let r := probeLoop s.incProbe s.timeout timeNow s.allocations s.allocatedPorts 0 (L + 1)
  let s' := { s with allocations := r.als, allocatedPorts := r.aps }
  match r.port with
  | none => (s', .error .poolExhausted)
  | some p =>
      if r.tries ≥ L then (s', .error .poolExhausted)
      else if peek then (s', .ok p)
      else ({ s' with lastPort := (s.lastPort + r.tries) % L }, .ok p)

/-- `SymmetricNat.peekNext`. -/
def SymNat.peekNext (s : SymNat) (timeNow : Int) : SymNat × Except NatErr Int :=
  s.nextFreePort timeNow true

/-- `SymmetricNat.cleanHeap`'s pop loop, structurally on the heap list:
while the minimum entry is expired, pop it, and evict the port only when the
entry still matches the authoritative record (same quartet and same
timestamp). Returns the final two tables and the remaining heap. -/
def cleanHeapGo (timeout timeNow : Int) :
    List HeapEntry → List (Quartet × Int) → List (Int × (Option Quartet × Int)) →
    List (Quartet × Int) × List (Int × (Option Quartet × Int)) × List HeapEntry
  | [], als, aps => (als, aps, [])
  | (cur, port, q) :: rest, als, aps =>
      if cur + timeout ≥ timeNow then (als, aps, (cur, port, q) :: rest)
      else if lookupA aps port = some (q, cur) then
        cleanHeapGo timeout timeNow rest
          (match q with
           | some q' => eraseA als q'
           | none => als)
          (eraseA aps port)
      else cleanHeapGo timeout timeNow rest als aps

/-- `SymmetricNat.cleanHeap`. -/
def SymNat.cleanHeap (s : SymNat) (timeNow : Int) : SymNat :=
  let r := cleanHeapGo s.timeout timeNow s.expireHeap s.allocations s.allocatedPorts
  { s with allocations := r.1, allocatedPorts := r.2.1, expireHeap := r.2.2 }

/-- `SymmetricNat.alloc`. `timeAdd = none` embeds the default argument
(`timeAdd = timeNow`); `coin` is the outcome of `random.randint(0, 100) == 0`
that triggers the opportunistic `cleanHeap`. Returns the external port
(`-1` when `refreshOnly` finds no mapping) or the escaping exception,
together with the state as mutated so far. -/
def SymNat.alloc (s : SymNat) (q : Quartet) (timeNow : Int) (timeAdd : Option Int)
    (refreshOnly : Bool) (coin : Bool) : SymNat × Except NatErr Int :=
  let timeAdd := timeAdd.getD timeNow
  match lookupA s.allocations q with
  | some port =>
      match lookupA s.allocatedPorts port with
      | none => (s, .error .pyError)     -- Python: `tup[1]` with `tup = None`
      | some (_, t) =>
          if t + s.timeout < timeNow then
            -- expired: evict from both tables and fall through
            let s₁ := { s with allocatedPorts := eraseA s.allocatedPorts port,
                               allocations := eraseA s.allocations q }
            if refreshOnly then (s₁, .ok (-1))
            else
              match s₁.nextFreePort timeNow false with
              | (s₂, .error e) => (s₂, .error e)
              | (s₂, .ok p) =>
                  let s₃ := { s₂ with
                    allocatedPorts := updateA s₂.allocatedPorts p (some q, timeAdd),
                    allocations := updateA s₂.allocations q p,
                    expireHeap := heapPush s₂.expireHeap (timeAdd, p, some q) }
                  ((if coin then s₃.cleanHeap timeNow else s₃), .ok p)
          else
            -- live: refresh the last-access time and return the same port
            ({ s with allocatedPorts := updateA s.allocatedPorts port (some q, timeAdd) },
             .ok port)
  | none =>
      if refreshOnly then (s, .ok (-1))
      else
        match s.nextFreePort timeNow false with
        | (s₂, .error e) => (s₂, .error e)
        | (s₂, .ok p) =>
            let s₃ := { s₂ with
              allocatedPorts := updateA s₂.allocatedPorts p (some q, timeAdd),
              allocations := updateA s₂.allocations q p,
              expireHeap := heapPush s₂.expireHeap (timeAdd, p, some q) }
            ((if coin then s₃.cleanHeap timeNow else s₃), .ok p)

/-- `SymmetricNat.occupy`: `num` anonymous allocations at `timeNow`; the
Python function returns 1 on success, and the exhaustion exception escapes
with the mutations made so far. -/
def SymNat.occupy (s : SymNat) (num : Nat) (timeNow : Int) : SymNat × Except NatErr Int :=
  match num with
  | 0 => (s, .ok 1)
  | n + 1 =>
      match s.nextFreePort timeNow false with
      | (s₁, .error e) => (s₁, .error e)
      | (s₁, .ok p) =>
          SymNat.occupy
            { s₁ with
              allocatedPorts := updateA s₁.allocatedPorts p (none, timeNow),
              expireHeap := heapPush s₁.expireHeap (timeNow, p, none) }
            n timeNow

/-- `SymmetricNat.freePorts`. -/
def SymNat.freePorts (s : SymNat) : Int :=
  (s.pool.length : Int) - s.allocatedPorts.length

/-- `SymmetricNat.trulyFreePorts`. -/
def SymNat.trulyFreePorts (s : SymNat) (timeNow : Int) : SymNat × Int :=
  let s' := s.cleanHeap timeNow
  (s', s'.freePorts)

/-!
## probRound and the SimpleStrategy offset table
-/

/-- `probRound` from simulation.py, over exact rationals. When the argument
is integral both branches coincide and the unrounded value is returned; the
`coin` oracle is the outcome of `random.random() <= (x - flr)`. -/
def probRound (x : Rat) (coin : Bool) : Rat :=
  if (⌊x⌋ : Int) = ⌈x⌉ then x
  else if coin then (⌈x⌉ : Int) else (⌊x⌋ : Int)

/-- The table `self.b` built by `SimpleStrategy.reset`: for each step in
`range(0, 1000)`, the probabilistic rounding of
`step * (1 + sim.lmbd * sim.portScanInterval)`. -/
def SimpleStrategy.resetB (lmbd portScanInterval : Rat) (coins : Nat → Bool) : List Rat :=
  (List.range 1000).map
    (fun (step : Nat) =>
      probRound ((step : Rat) * (1 + lmbd * portScanInterval)) (coins step))

/-!
## The round loop of NatSimulation.simulation
-/

/-- The observable outcome of one round of `NatSimulation.simulation`:
either `simulationCore` returned and its intersection `res` was nonempty
(`matched`) or empty (`noMatch`), or the `"Port pool exhausted"` exception
escaped one of the `alloc()`/`occupy()` calls made during the round
(`poolExhausted`). The outcome of each round is a function of the round's
random draws; the sweep consumes one outcome per configured round. -/
inductive RoundOutcome where
  | matched
  | noMatch
  | poolExhausted
  deriving DecidableEq, Repr

/-- Result of a completed sweep: the final `successCnt` and `realRounds`. -/
structure SimResult where
  successCnt : Nat
  realRounds : Nat
  deriving DecidableEq, Repr

/-- The reported success probability,
`successCnt / realRounds if realRounds > 0 else 0`. -/
def SimResult.ratio (r : SimResult) : Rat :=
  if r.realRounds > 0 then (r.successCnt : Rat) / r.realRounds else 0

/-- The `for sn in range(0, self.simulationRounds)` loop of
`NatSimulation.simulation`. `configured` is `self.simulationRounds`, `fast`
is `self.simulationRoundsFast`, `sn` the round index and `successCnt` the
running success counter. Per round, in source order: the round body runs
(an escaping pool-exhaustion exception aborts the whole call, there is no
handler in `simulation`); then, when `sn == simulationRoundsFast` and
`2.0 * successCnt < simulationRoundsFast`, the loop breaks with
`realRounds = sn + 1` before the round's own result is examined; otherwise
an empty intersection `continue`s and a nonempty one increments
`successCnt`. -/
def simLoop (configured fast : Nat) : List RoundOutcome → Nat → Nat → Except Unit SimResult
  | [], _, successCnt => .ok ⟨successCnt, configured⟩
  | o :: rest, sn, successCnt =>
      match o with
      | .poolExhausted => .error ()
      | o =>
          if sn = fast ∧ 2 * successCnt < fast then .ok ⟨successCnt, sn + 1⟩
          else simLoop configured fast rest (sn + 1)
                 (if o = .matched then successCnt + 1 else successCnt)

/-- `NatSimulation.simulation`'s aggregation over a sweep, with the rounds'
outcomes supplied as the oracle list (one entry per configured round). -/
def simulation (fast : Nat) (outcomes : List RoundOutcome) : Except Unit SimResult :=
  simLoop outcomes.length fast outcomes 0 0

/-- Number of successful rounds in an outcome list. -/
def countMatched (outcomes : List RoundOutcome) : Nat :=
  (outcomes.filter (· = .matched)).length

/-!
## Association-list lemmas
-/

theorem lookupA_updateA_self {α β : Type} [DecidableEq α]
    (l : List (α × β)) (k : α) (v : β) : lookupA (updateA l k v) k = some v := by
  induction l with
  | nil => simp [updateA, lookupA]
  | cons e rest ih =>
      obtain ⟨k', v'⟩ := e
      by_cases h : k' = k
      · simp [updateA, h, lookupA]
      · simp [updateA, h, lookupA, ih]

theorem lookupA_updateA_ne {α β : Type} [DecidableEq α]
    (l : List (α × β)) (k k' : α) (v : β) (h : k' ≠ k) :
    lookupA (updateA l k v) k' = lookupA l k' := by
  induction l with
  | nil => simp [updateA, lookupA, Ne.symm h]
  | cons e rest ih =>
      obtain ⟨k₀, v₀⟩ := e
      by_cases h₀ : k₀ = k
      · subst h₀
        simp [updateA, lookupA, Ne.symm h]
      · simp [updateA, h₀, lookupA, ih]

theorem lookupA_eraseA_ne {α β : Type} [DecidableEq α]
    (l : List (α × β)) (k k' : α) (h : k' ≠ k) :
    lookupA (eraseA l k) k' = lookupA l k' := by
  induction l with
  | nil => simp [eraseA]
  | cons e rest ih =>
      obtain ⟨k₀, v₀⟩ := e
      by_cases h₀ : k₀ = k
      · subst h₀
        simp [eraseA, lookupA, Ne.symm h]
      · simp [eraseA, h₀, lookupA, ih]

theorem lookupA_eraseA_of_none {α β : Type} [DecidableEq α]
    (l : List (α × β)) (k k' : α) (h : lookupA l k' = none) :
    lookupA (eraseA l k) k' = none := by
  by_cases hk : k' = k
  · subst hk
    induction l with
    | nil => simpa [eraseA] using h
    | cons e rest ih =>
        obtain ⟨k₀, v₀⟩ := e
        by_cases h₀ : k₀ = k'
        · simp [lookupA, h₀] at h
        · simp [lookupA, h₀] at h
          simp [eraseA, h₀, lookupA, ih h]
  · rw [lookupA_eraseA_ne _ _ _ hk]
    exact h

/-!
## C5 and C6: the refresh and refreshOnly paths of `alloc`
-/

/-- C5: if the quartet is already mapped and the mapped port's record is
live at `now` (`¬ (lastAccessTime + timeout < now)`), then `alloc` returns
the existing port and its only state change is rewriting that port's
allocation record to `(quartet, lastSeen)`: the quartet-to-port table, the
expiry heap, the cursor, and every other port's record are untouched. -/
theorem c5_alloc_mapped_live_refreshes_only
    (s : SymNat) (q : Quartet) (port now la t : Int) (ro coin : Bool)
    (hm : lookupA s.allocations q = some port)
    (hr : lookupA s.allocatedPorts port = some (some q, t))
    (hlive : ¬ (t + s.timeout < now)) :
    s.alloc q now (some la) ro coin =
      ({ s with allocatedPorts := updateA s.allocatedPorts port (some q, la) },
        Except.ok port) ∧
    (s.alloc q now (some la) ro coin).1.allocations = s.allocations ∧
    (s.alloc q now (some la) ro coin).1.expireHeap = s.expireHeap ∧
    (s.alloc q now (some la) ro coin).1.lastPort = s.lastPort ∧
    lookupA (s.alloc q now (some la) ro coin).1.allocatedPorts port = some (some q, la) ∧
    ∀ p : Int, p ≠ port →
      lookupA (s.alloc q now (some la) ro coin).1.allocatedPorts p =
        lookupA s.allocatedPorts p := by
  have halloc : s.alloc q now (some la) ro coin =
      ({ s with allocatedPorts := updateA s.allocatedPorts port (some q, la) },
        Except.ok port) := by
    unfold SymNat.alloc
    rw [hm]
    simp only [Option.getD_some]
    rw [hr]
    simp [hlive]
  refine ⟨halloc, ?_, ?_, ?_, ?_, ?_⟩
  · rw [halloc]
  · rw [halloc]
  · rw [halloc]
  · rw [halloc]
    exact lookupA_updateA_self _ _ _
  · intro p hp
    rw [halloc]
    exact lookupA_updateA_ne _ _ _ _ hp

/-- Witness for C5 at a concrete state. -/
theorem c5_alloc_mapped_live_refreshes_only_witness :
    lookupA ({ allocations := [(⟨0, 10, 1, 20⟩, 1026)],
               allocatedPorts := [(1026, (some ⟨0, 10, 1, 20⟩, 5))],
               expireHeap := [(5, 1026, some ⟨0, 10, 1, 20⟩)],
               pool := [1025, 1026, 1027], lastPort := 1,
               timeout := 180000 } : SymNat).allocations ⟨0, 10, 1, 20⟩ = some 1026 ∧
    (SymNat.alloc { allocations := [(⟨0, 10, 1, 20⟩, 1026)],
                    allocatedPorts := [(1026, (some ⟨0, 10, 1, 20⟩, 5))],
                    expireHeap := [(5, 1026, some ⟨0, 10, 1, 20⟩)],
                    pool := [1025, 1026, 1027], lastPort := 1,
                    timeout := 180000 } ⟨0, 10, 1, 20⟩ 10 (some 10) false false).2 =
      Except.ok 1026 := by
  refine ⟨by decide, ?_⟩
  have h := c5_alloc_mapped_live_refreshes_only
    { allocations := [(⟨0, 10, 1, 20⟩, 1026)],
      allocatedPorts := [(1026, (some ⟨0, 10, 1, 20⟩, 5))],
      expireHeap := [(5, 1026, some ⟨0, 10, 1, 20⟩)],
      pool := [1025, 1026, 1027], lastPort := 1, timeout := 180000 }
    ⟨0, 10, 1, 20⟩ 1026 10 10 5 false false (by decide) (by decide) (by decide)
  rw [h.1]

/-- C6: `alloc(..., refreshOnly = True)` on a quartet with no entry in the
allocation table returns -1 and leaves the state exactly as it was. -/
theorem c6_alloc_refreshOnly_unmapped_noop
    (s : SymNat) (q : Quartet) (now : Int) (timeAdd : Option Int) (coin : Bool)
    (hm : lookupA s.allocations q = none) :
    s.alloc q now timeAdd true coin = (s, Except.ok (-1)) := by
  unfold SymNat.alloc
  rw [hm]
  simp

/-- Witness for C6 at a concrete state. -/
theorem c6_alloc_refreshOnly_unmapped_noop_witness :
    lookupA (SymNat.init).allocations ⟨0, 10, 1, 20⟩ = none ∧
    SymNat.init.alloc ⟨0, 10, 1, 20⟩ 7 none true true = (SymNat.init, Except.ok (-1)) :=
  ⟨rfl, c6_alloc_refreshOnly_unmapped_noop SymNat.init ⟨0, 10, 1, 20⟩ 7 none true rfl⟩
/-!
## C8: SimpleStrategy's table is a probabilistic rounding
-/

/-- C8: for every step `s < 1000` and every outcome of the rounding coin,
the entry of `SimpleStrategy`'s precomputed table at `s` equals either the
floor or the ceiling of `s * (1 + lambda * scanInterval)`, and is therefore
within 1 of `round` of that value. -/
theorem c8_simple_offset_prob_rounding (lmbd T : Rat) (coins : Nat → Bool) (s : Nat)
    (hs : s < 1000) :
    ∃ b : Rat, (SimpleStrategy.resetB lmbd T coins)[s]? = some b ∧
      (b = (⌊(s : Rat) * (1 + lmbd * T)⌋ : Rat) ∨
       b = (⌈(s : Rat) * (1 + lmbd * T)⌉ : Rat)) ∧
      |b - (round ((s : Rat) * (1 + lmbd * T)) : Rat)| ≤ 1 := by
  set v : Rat := (s : Rat) * (1 + lmbd * T) with hv
  refine ⟨probRound v (coins s), ?_, ?_, ?_⟩
  · simp [SimpleStrategy.resetB, List.getElem?_map, List.getElem?_range, hs, hv]
  · unfold probRound
    by_cases hfc : (⌊v⌋ : Int) = ⌈v⌉
    · have h1 : (⌊v⌋ : Rat) ≤ v := Int.floor_le v
      have h2 : v ≤ (⌈v⌉ : Rat) := Int.le_ceil v
      rw [← hfc] at h2
      left
      rw [if_pos hfc]
      linarith
    · rw [if_neg hfc]
      by_cases hc : coins s
      · right
        rw [if_pos hc]
      · left
        rw [if_neg hc]
  · have hceil : (⌈v⌉ : Int) ≤ ⌊v⌋ + 1 := Int.ceil_le_floor_add_one v
    have hround1 : (⌊v⌋ : Int) ≤ round v := by
      rw [round_eq]
      exact Int.floor_le_floor (by linarith)
    have hround2 : (round v : Int) ≤ ⌊v⌋ + 1 := by
      rw [round_eq, ← Int.floor_add_one v]
      exact Int.floor_le_floor (by linarith)
    have hbl : (⌊v⌋ : Rat) ≤ probRound v (coins s) := by
      unfold probRound
      by_cases hfc : (⌊v⌋ : Int) = ⌈v⌉
      · rw [if_pos hfc]
        exact Int.floor_le v
      · rw [if_neg hfc]
        by_cases hc : coins s
        · rw [if_pos hc]
          exact_mod_cast Int.floor_le_ceil v
        · rw [if_neg hc]
    have hbu : probRound v (coins s) ≤ (⌊v⌋ : Rat) + 1 := by
      unfold probRound
      by_cases hfc : (⌊v⌋ : Int) = ⌈v⌉
      · rw [if_pos hfc]
        have := Int.le_ceil v
        rw [← hfc] at this
        linarith
      · rw [if_neg hfc]
        by_cases hc : coins s
        · rw [if_pos hc]
          exact_mod_cast hceil
        · rw [if_neg hc]
          linarith
    have hr1 : (⌊v⌋ : Rat) ≤ (round v : Int) := by exact_mod_cast hround1
    have hr2 : ((round v : Int) : Rat) ≤ (⌊v⌋ : Rat) + 1 := by exact_mod_cast hround2
    rw [abs_sub_le_iff]
    constructor <;> linarith

/-- Witness for C8 at concrete parameters. -/
theorem c8_simple_offset_prob_rounding_witness :
    3 < 1000 ∧
    ∃ b : Rat, (SimpleStrategy.resetB (1/10) 10 (fun _ => false))[3]? = some b ∧
      (b = (⌊(3 : Rat) * (1 + (1/10) * 10)⌋ : Rat) ∨
       b = (⌈(3 : Rat) * (1 + (1/10) * 10)⌉ : Rat)) ∧
      |b - (round ((3 : Rat) * (1 + (1/10) * 10)) : Rat)| ≤ 1 :=
  ⟨by decide, by exact_mod_cast c8_simple_offset_prob_rounding (1/10) 10 (fun _ => false) 3 (by decide)⟩

/-!
## The round loop: C4 (early abort) and C1 (pool exhaustion aborts the sweep)
-/

theorem countMatched_cons (o : RoundOutcome) (t : List RoundOutcome) :
    countMatched (o :: t) =
      (if o = .matched then 1 else 0) + countMatched t := by
  unfold countMatched
  by_cases h : o = .matched
  · simp [h, List.filter]
    omega
  · simp [h, List.filter]

/-- Processing a block of rounds whose indices all stay below the fast-check
threshold and which raise no pool exhaustion just accumulates the match
count. -/
theorem simLoop_append (cfg fast : Nat) (pre rest : List RoundOutcome)
    (sn acc : Nat) (hlen : sn + pre.length ≤ fast)
    (hnoex : RoundOutcome.poolExhausted ∉ pre) :
    simLoop cfg fast (pre ++ rest) sn acc =
      simLoop cfg fast rest (sn + pre.length) (acc + countMatched pre) := by
  induction pre generalizing sn acc with
  | nil => simp [countMatched, List.filter]
  | cons o t ih =>
      have ho : o ≠ .poolExhausted := by
        intro h
        exact hnoex (by simp [h])
      have hlen' : sn + t.length + 1 ≤ fast := by
        rw [List.length_cons] at hlen
        omega
      have hsn : sn ≠ fast := by omega
      have hstep : simLoop cfg fast ((o :: t) ++ rest) sn acc =
          simLoop cfg fast (t ++ rest) (sn + 1)
            (if o = .matched then acc + 1 else acc) := by
        cases o with
        | matched => simp [simLoop, hsn]
        | noMatch => simp [simLoop, hsn]
        | poolExhausted => exact absurd rfl ho
      rw [hstep, ih _ _ (by omega) (fun hm => hnoex (List.mem_cons_of_mem _ hm))]
      have e1 : sn + (o :: t).length = sn + 1 + t.length := by
        rw [List.length_cons]
        omega
      have e2 : acc + countMatched (o :: t) =
          (if o = .matched then acc + 1 else acc) + countMatched t := by
        rw [countMatched_cons]
        by_cases hm : o = .matched
        · simp [hm]
          omega
        · simp [hm]
      rw [e1, e2]

/-- C4: when the success rate at the fast-check round is below 50%, the
sweep stops at round `fast` (so `fast + 1` rounds were attempted, strictly
fewer than configured) and the reported probability divides the running
success count by the attempted-round count, not the configured count. -/
theorem c4_early_abort_uses_attempted_rounds (fast : Nat) (outcomes : List RoundOutcome)
    (hfast : fast + 1 < outcomes.length)
    (hnoex : RoundOutcome.poolExhausted ∉ outcomes.take (fast + 1))
    (hrate : 2 * countMatched (outcomes.take fast) < fast) :
    simulation fast outcomes =
      Except.ok ⟨countMatched (outcomes.take fast), fast + 1⟩ ∧
    fast + 1 < outcomes.length ∧
    SimResult.ratio ⟨countMatched (outcomes.take fast), fast + 1⟩ =
      (countMatched (outcomes.take fast) : Rat) / ((fast : Rat) + 1) := by
  refine ⟨?_, hfast, ?_⟩
  · have hsplit : outcomes = outcomes.take fast ++ outcomes.drop fast :=
      (List.take_append_drop fast outcomes).symm
    have hflt : fast < outcomes.length := by omega
    have hdrop : outcomes.drop fast = outcomes[fast] :: outcomes.drop (fast + 1) :=
      List.drop_eq_getElem_cons hflt
    have htlen : (outcomes.take fast).length = fast :=
      List.length_take_of_le (by omega)
    have hnoexpre : RoundOutcome.poolExhausted ∉ outcomes.take fast := by
      intro hm
      have hsub : outcomes.take fast = (outcomes.take (fast + 1)).take fast := by
        rw [List.take_take]
        congr 1
        omega
      rw [hsub] at hm
      exact hnoex (List.mem_of_mem_take hm)
    have hofast : outcomes[fast] ≠ RoundOutcome.poolExhausted := by
      intro h
      apply hnoex
      have hlt : fast < (outcomes.take (fast + 1)).length := by
        rw [List.length_take]
        omega
      have hmem := List.getElem_mem hlt
      rw [List.getElem_take] at hmem
      rw [← h]
      exact hmem
    unfold simulation
    conv_lhs => rw [hsplit, hdrop]
    rw [simLoop_append _ _ _ _ 0 0 (by omega) hnoexpre]
    rw [htlen]
    cases ho : outcomes[fast] with
    | poolExhausted => exact absurd ho hofast
    | matched => simp [simLoop, hrate]
    | noMatch => simp [simLoop, hrate]
  · simp [SimResult.ratio]

/-- Witness for C4: `fast = 1`, four configured rounds, no match in the
first round, so the sweep stops after two attempted rounds. -/
theorem c4_early_abort_uses_attempted_rounds_witness :
    1 + 1 < ([RoundOutcome.noMatch, .matched, .matched, .noMatch] : List RoundOutcome).length ∧
    RoundOutcome.poolExhausted ∉
      ([RoundOutcome.noMatch, .matched, .matched, .noMatch] : List RoundOutcome).take (1 + 1) ∧
    2 * countMatched (([RoundOutcome.noMatch, .matched, .matched, .noMatch] :
      List RoundOutcome).take 1) < 1 ∧
    simulation 1 [RoundOutcome.noMatch, .matched, .matched, .noMatch] =
      Except.ok ⟨countMatched (([RoundOutcome.noMatch, .matched, .matched, .noMatch] :
        List RoundOutcome).take 1), 1 + 1⟩ :=
  ⟨by decide, by decide, by decide,
   (c4_early_abort_uses_attempted_rounds 1 [RoundOutcome.noMatch, .matched, .matched, .noMatch]
     (by decide) (by decide) (by decide)).1⟩

/-- Counterexample to C1 as stated: a pool-exhaustion in round 0 makes the
whole sweep abort with the exception (no aggregate at all), which is not
the aggregation `Except.ok ⟨1, 2⟩` that treating the round as an ordinary
non-match over the remaining configured rounds would produce. -/
theorem c1_counterexample :
    simulation 100 [RoundOutcome.poolExhausted, .matched] = Except.error () ∧
    simulation 100 [RoundOutcome.noMatch, .matched] = Except.ok ⟨1, 2⟩ ∧
    (Except.error () : Except Unit SimResult) ≠ Except.ok ⟨1, 2⟩ := by
  refine ⟨rfl, rfl, ?_⟩
  intro h
  exact Except.noConfusion h

/-- C1 (amended): a `"Port pool exhausted"` exception raised during a round
that the sweep reaches propagates out of `NatSimulation.simulation`
uncaught: the sweep aborts immediately, the remaining configured rounds are
not run and no aggregate is produced (only the `__main__` benchmark loop
catches the exception and skips that lambda point). -/
theorem c1_pool_exhaustion_aborts_sweep (fast : Nat) (pre post : List RoundOutcome)
    (hlen : pre.length ≤ fast) (hnoex : RoundOutcome.poolExhausted ∉ pre) :
    simulation fast (pre ++ RoundOutcome.poolExhausted :: post) = Except.error () := by
  unfold simulation
  rw [simLoop_append _ _ _ _ 0 0 (by omega) hnoex]
  rfl

/-- Witness for the amended C1. -/
theorem c1_pool_exhaustion_aborts_sweep_witness :
    ([RoundOutcome.matched] : List RoundOutcome).length ≤ 100 ∧
    RoundOutcome.poolExhausted ∉ ([RoundOutcome.matched] : List RoundOutcome) ∧
    simulation 100 ([RoundOutcome.matched] ++ RoundOutcome.poolExhausted :: [.noMatch]) =
      Except.error () :=
  ⟨by decide, by decide,
   c1_pool_exhaustion_aborts_sweep 100 [RoundOutcome.matched] [.noMatch]
     (by decide) (by decide)⟩

/-!
## Key uniqueness of the embedded dicts
-/

/-- Key uniqueness, true of every Python dict. -/
def keysNodup {α β : Type} (l : List (α × β)) : Prop :=
  (l.map Prod.fst).Nodup

theorem lookupA_eq_none_of_not_mem_keys {α β : Type} [DecidableEq α]
    (l : List (α × β)) (k : α) (h : k ∉ l.map Prod.fst) : lookupA l k = none := by
  induction l with
  | nil => rfl
  | cons e rest ih =>
      obtain ⟨k₀, v₀⟩ := e
      simp only [List.map_cons, List.mem_cons] at h
      push_neg at h
      simp [lookupA, Ne.symm h.1, ih h.2]

theorem eraseA_sublist {α β : Type} [DecidableEq α] (l : List (α × β)) (k : α) :
    (eraseA l k).Sublist l := by
  induction l with
  | nil => simp [eraseA]
  | cons e rest ih =>
      obtain ⟨k₀, v₀⟩ := e
      by_cases h : k₀ = k
      · simp [eraseA, h]
      · simpa [eraseA, h] using List.Sublist.cons₂ (k₀, v₀) ih

theorem keysNodup_eraseA {α β : Type} [DecidableEq α]
    (l : List (α × β)) (k : α) (h : keysNodup l) : keysNodup (eraseA l k) :=
  List.Nodup.sublist (List.Sublist.map Prod.fst (eraseA_sublist l k)) h

theorem lookupA_eraseA_self {α β : Type} [DecidableEq α]
    (l : List (α × β)) (k : α) (h : keysNodup l) : lookupA (eraseA l k) k = none := by
  induction l with
  | nil => rfl
  | cons e rest ih =>
      obtain ⟨k₀, v₀⟩ := e
      unfold keysNodup at h
      simp only [List.map_cons, List.nodup_cons] at h
      by_cases h₀ : k₀ = k
      · subst h₀
        simpa [eraseA] using lookupA_eq_none_of_not_mem_keys rest k₀ h.1
      · simp [eraseA, h₀, lookupA, ih h.2]

theorem keys_updateA {α β : Type} [DecidableEq α] (l : List (α × β)) (k : α) (v : β) :
    (updateA l k v).map Prod.fst =
      if k ∈ l.map Prod.fst then l.map Prod.fst else l.map Prod.fst ++ [k] := by
  induction l with
  | nil => simp [updateA]
  | cons e rest ih =>
      obtain ⟨k₀, v₀⟩ := e
      by_cases h₀ : k₀ = k
      · simp [updateA, h₀]
      · by_cases hmem : k ∈ rest.map Prod.fst
        · simp [updateA, h₀, ih, hmem, Ne.symm h₀]
        · simp [updateA, h₀, ih, hmem, Ne.symm h₀]

theorem keysNodup_updateA {α β : Type} [DecidableEq α]
    (l : List (α × β)) (k : α) (v : β) (h : keysNodup l) : keysNodup (updateA l k v) := by
  unfold keysNodup
  rw [keys_updateA]
  by_cases hmem : k ∈ l.map Prod.fst
  · simpa [hmem] using h
  · have h' : (l.map Prod.fst).Nodup := h
    simp only [hmem, if_false]
    simp [List.nodup_append, h', hmem]

/-!
## C9: lazy validation in `cleanHeap`
-/

theorem cleanHeapGo_preserves_live (timeout timeNow : Int)
    (heap : List HeapEntry) (als : List (Quartet × Int))
    (aps : List (Int × (Option Quartet × Int))) (p : Int) (oq : Option Quartet) (t : Int)
    (hl : lookupA aps p = some (oq, t)) (hlive : ¬ (t + timeout < timeNow)) :
    lookupA (cleanHeapGo timeout timeNow heap als aps).2.1 p = some (oq, t) := by
  induction heap generalizing als aps with
  | nil => simpa [cleanHeapGo] using hl
  | cons e rest ih =>
      obtain ⟨cur, port, q⟩ := e
      by_cases hexp : cur + timeout ≥ timeNow
      · simpa [cleanHeapGo, hexp] using hl
      · by_cases hmatch : lookupA aps port = some (q, cur)
        · have hne : p ≠ port := by
            intro h
            rw [h, hmatch] at hl
            have : cur = t := by injection hl with h1; injection h1
            omega
          have hl' : lookupA (eraseA aps port) p = some (oq, t) := by
            rw [lookupA_eraseA_ne _ _ _ hne]
            exact hl
          simpa [cleanHeapGo, hexp, hmatch] using ih _ _ hl'
        · simpa [cleanHeapGo, hexp, hmatch] using ih _ _ hl

/-- C9, part (b) at the level of `cleanHeap`, adding the quartet-to-port
side under the hypothesis that only `p`'s record names `q` (a consequence
of the bidirectional-map invariant). -/
theorem cleanHeapGo_preserves_live_named (timeout timeNow : Int)
    (heap : List HeapEntry) (als : List (Quartet × Int))
    (aps : List (Int × (Option Quartet × Int))) (p : Int) (q : Quartet) (t : Int)
    (hnodup : keysNodup aps)
    (hl : lookupA aps p = some (some q, t)) (hlive : ¬ (t + timeout < timeNow))
    (hq : lookupA als q = some p)
    (huniq : ∀ p' t', lookupA aps p' = some (some q, t') → p' = p) :
    lookupA (cleanHeapGo timeout timeNow heap als aps).1 q = some p := by
  induction heap generalizing als aps with
  | nil => simpa [cleanHeapGo] using hq
  | cons e rest ih =>
      obtain ⟨cur, port, q'⟩ := e
      by_cases hexp : cur + timeout ≥ timeNow
      · simpa [cleanHeapGo, hexp] using hq
      · by_cases hmatch : lookupA aps port = some (q', cur)
        · have hne : p ≠ port := by
            intro h
            rw [h, hmatch] at hl
            have : cur = t := by injection hl with h1; injection h1
            omega
          have hl' : lookupA (eraseA aps port) p = some (some q, t) := by
            rw [lookupA_eraseA_ne _ _ _ hne]
            exact hl
          have huniq' : ∀ p' t', lookupA (eraseA aps port) p' = some (some q, t') → p' = p := by
            intro p' t' hp'
            by_cases hpp : p' = port
            · rw [hpp, lookupA_eraseA_self _ _ hnodup] at hp'
              exact absurd hp' (by simp)
            · rw [lookupA_eraseA_ne _ _ _ hpp] at hp'
              exact huniq p' t' hp'
          have hq' : lookupA (match q' with
              | some q'' => eraseA als q''
              | none => als) q = some p := by
            cases q' with
            | none => exact hq
            | some q'' =>
                have : q'' ≠ q := by
                  intro h
                  subst h
                  exact hne (huniq port cur hmatch).symm
                rw [lookupA_eraseA_ne _ _ _ (Ne.symm this)]
                exact hq
          simpa [cleanHeapGo, hexp, hmatch] using
            ih _ _ (keysNodup_eraseA _ _ hnodup) hl' hq' huniq'
        · simpa [cleanHeapGo, hexp, hmatch] using ih _ _ hnodup hl hq huniq

/-- C9: an entry popped by `cleanHeap` is acted on only if it still matches
the authoritative allocation record for its port (same quartet option and
same timestamp, hence an expired record): (a) a popped expired entry that
does not match the record is discarded with no effect on either table, and
(b) a port whose record is live at `timeNow` keeps exactly that record
across `cleanHeap` (and, under the invariant-provided naming-uniqueness
hypothesis, its quartet keeps its table entry), so cleanup never removes a
live allocation. -/
theorem c9_cleanHeap_lazy_validation :
    (∀ (s : SymNat) (timeNow cur port : Int) (q : Option Quartet)
       (rest : List HeapEntry),
       s.expireHeap = (cur, port, q) :: rest →
       cur + s.timeout < timeNow →
       lookupA s.allocatedPorts port ≠ some (q, cur) →
       s.cleanHeap timeNow = SymNat.cleanHeap { s with expireHeap := rest } timeNow) ∧
    (∀ (s : SymNat) (timeNow p t : Int) (oq : Option Quartet),
       lookupA s.allocatedPorts p = some (oq, t) →
       ¬ (t + s.timeout < timeNow) →
       lookupA (s.cleanHeap timeNow).allocatedPorts p = some (oq, t)) ∧
    (∀ (s : SymNat) (timeNow p t : Int) (q : Quartet),
       keysNodup s.allocatedPorts →
       lookupA s.allocatedPorts p = some (some q, t) →
       ¬ (t + s.timeout < timeNow) →
       lookupA s.allocations q = some p →
       (∀ p' t', lookupA s.allocatedPorts p' = some (some q, t') → p' = p) →
       lookupA (s.cleanHeap timeNow).allocations q = some p) := by
  refine ⟨?_, ?_, ?_⟩
  · intro s timeNow cur port q rest hheap hexp hmismatch
    unfold SymNat.cleanHeap
    rw [hheap]
    have : ¬ (cur + s.timeout ≥ timeNow) := by omega
    simp [cleanHeapGo, this, hmismatch]
  · intro s timeNow p t oq hl hlive
    exact cleanHeapGo_preserves_live _ _ _ _ _ _ _ _ hl hlive
  · intro s timeNow p t q hnodup hl hlive hq huniq
    exact cleanHeapGo_preserves_live_named _ _ _ _ _ _ _ _ hnodup hl hlive hq huniq

/-- Witness for C9: a heap with one stale and one live entry over a live
record. -/
theorem c9_cleanHeap_lazy_validation_witness :
    (({ allocations := [(⟨0, 10, 1, 20⟩, 1026)],
        allocatedPorts := [(1026, (some ⟨0, 10, 1, 20⟩, 300000))],
        expireHeap := [(5, 1026, some ⟨0, 10, 1, 20⟩), (300000, 1026, some ⟨0, 10, 1, 20⟩)],
        pool := [1025, 1026], lastPort := 0, timeout := 180000 } : SymNat).expireHeap =
      (5, 1026, some ⟨0, 10, 1, 20⟩) ::
        [((300000 : Int), (1026 : Int), some (⟨0, 10, 1, 20⟩ : Quartet))]) ∧
    ((5 : Int) + 180000 < 200000) ∧
    lookupA [((1026 : Int), (some (⟨0, 10, 1, 20⟩ : Quartet), (300000 : Int)))] 1026 ≠
      some (some ⟨0, 10, 1, 20⟩, 5) ∧
    SymNat.cleanHeap
      { allocations := [(⟨0, 10, 1, 20⟩, 1026)],
        allocatedPorts := [(1026, (some ⟨0, 10, 1, 20⟩, 300000))],
        expireHeap := [(5, 1026, some ⟨0, 10, 1, 20⟩), (300000, 1026, some ⟨0, 10, 1, 20⟩)],
        pool := [1025, 1026], lastPort := 0, timeout := 180000 } 200000 =
    SymNat.cleanHeap
      { allocations := [(⟨0, 10, 1, 20⟩, 1026)],
        allocatedPorts := [(1026, (some ⟨0, 10, 1, 20⟩, 300000))],
        expireHeap := [(300000, 1026, some ⟨0, 10, 1, 20⟩)],
        pool := [1025, 1026], lastPort := 0, timeout := 180000 } 200000 ∧
    lookupA (SymNat.cleanHeap
      { allocations := [(⟨0, 10, 1, 20⟩, 1026)],
        allocatedPorts := [(1026, (some ⟨0, 10, 1, 20⟩, 300000))],
        expireHeap := [(5, 1026, some ⟨0, 10, 1, 20⟩), (300000, 1026, some ⟨0, 10, 1, 20⟩)],
        pool := [1025, 1026], lastPort := 0, timeout := 180000 } 200000).allocatedPorts 1026 =
      some (some ⟨0, 10, 1, 20⟩, 300000) := by
  refine ⟨rfl, by decide, by decide, ?_, ?_⟩
  · exact c9_cleanHeap_lazy_validation.1
      { allocations := [(⟨0, 10, 1, 20⟩, 1026)],
        allocatedPorts := [(1026, (some ⟨0, 10, 1, 20⟩, 300000))],
        expireHeap := [(5, 1026, some ⟨0, 10, 1, 20⟩), (300000, 1026, some ⟨0, 10, 1, 20⟩)],
        pool := [1025, 1026], lastPort := 0, timeout := 180000 }
      200000 5 1026 (some ⟨0, 10, 1, 20⟩) _ rfl (by decide) (by decide)
  · exact c9_cleanHeap_lazy_validation.2.1
      { allocations := [(⟨0, 10, 1, 20⟩, 1026)],
        allocatedPorts := [(1026, (some ⟨0, 10, 1, 20⟩, 300000))],
        expireHeap := [(5, 1026, some ⟨0, 10, 1, 20⟩), (300000, 1026, some ⟨0, 10, 1, 20⟩)],
        pool := [1025, 1026], lastPort := 0, timeout := 180000 }
      200000 1026 300000 (some ⟨0, 10, 1, 20⟩) (by decide) (by decide)

/-!
## C2: the probe loop and the exhaustion condition
-/

/-- The acceptance test of one probe of the selection algorithm: the probed
port is unallocated, or allocated but expired at `timeNow`. -/
def accepts (probe : Nat → Int) (aps : List (Int × (Option Quartet × Int)))
    (timeout timeNow : Int) (k : Nat) : Bool :=
  match lookupA aps (probe k) with
  | none => true
  | some (_, t) => decide (t + timeout < timeNow)

theorem probeLoop_no_accept (probe : Nat → Int) (timeout timeNow : Int)
    (als : List (Quartet × Int)) (aps : List (Int × (Option Quartet × Int)))
    (tries fuel : Nat)
    (h : ∀ j, tries < j → j ≤ tries + fuel →
      accepts probe aps timeout timeNow j = false) :
    probeLoop probe timeout timeNow als aps tries fuel = ⟨als, aps, tries + fuel, none⟩ := by
  induction fuel generalizing tries with
  | zero => simp [probeLoop]
  | succ n ih =>
      have hacc : accepts probe aps timeout timeNow (tries + 1) = false :=
        h (tries + 1) (by omega) (by omega)
      cases hl : lookupA aps (probe (tries + 1)) with
      | none =>
          unfold accepts at hacc
          rw [hl] at hacc
          simp at hacc
      | some v =>
          obtain ⟨oq, t⟩ := v
          have hexp : ¬ (t + timeout < timeNow) := by
            unfold accepts at hacc
            rw [hl] at hacc
            simpa using hacc
          have hstep : probeLoop probe timeout timeNow als aps tries (n + 1) =
              probeLoop probe timeout timeNow als aps (tries + 1) n := by
            simp only [probeLoop, hl]
            rw [if_neg hexp]
          rw [hstep, ih (tries + 1) (fun j hj1 hj2 => h j (by omega) (by omega))]
          have harith : tries + 1 + n = tries + (n + 1) := by omega
          rw [harith]

theorem probeLoop_first_accept (probe : Nat → Int) (timeout timeNow : Int)
    (als : List (Quartet × Int)) (aps : List (Int × (Option Quartet × Int)))
    (tries fuel k : Nat) (hk1 : tries < k) (hk2 : k ≤ tries + fuel)
    (hacc : accepts probe aps timeout timeNow k = true)
    (hbefore : ∀ j, tries < j → j < k → accepts probe aps timeout timeNow j = false) :
    (probeLoop probe timeout timeNow als aps tries fuel).tries = k ∧
    (probeLoop probe timeout timeNow als aps tries fuel).port = some (probe k) := by
  induction fuel generalizing tries with
  | zero => omega
  | succ n ih =>
      cases hl : lookupA aps (probe (tries + 1)) with
      | none =>
          have hk : k = tries + 1 := by
            by_contra hne
            have hb := hbefore (tries + 1) (by omega) (by omega)
            unfold accepts at hb
            rw [hl] at hb
            simp at hb
          subst hk
          simp [probeLoop, hl]
      | some v =>
          obtain ⟨oq, t⟩ := v
          by_cases hexp : t + timeout < timeNow
          · have hk : k = tries + 1 := by
              by_contra hne
              have hb := hbefore (tries + 1) (by omega) (by omega)
              unfold accepts at hb
              rw [hl] at hb
              simp [hexp] at hb
            subst hk
            simp only [probeLoop, hl]
            rw [if_pos hexp]
            exact ⟨rfl, rfl⟩
          · have hk : k ≠ tries + 1 := by
              intro he
              subst he
              unfold accepts at hacc
              rw [hl] at hacc
              simp [hexp] at hacc
            have hstep : probeLoop probe timeout timeNow als aps tries (n + 1) =
                probeLoop probe timeout timeNow als aps (tries + 1) n := by
              simp only [probeLoop, hl]
              rw [if_neg hexp]
            rw [hstep]
            exact ih (tries + 1) (by omega) (by omega)
              (fun j hj1 hj2 => hbefore j (by omega) hj2)

/-- A state exercising the off-by-one of the exhaustion check: pool of size
2, the slot probed first holds a live allocation, the slot probed second is
free. -/
def offByOneNat : SymNat :=
  { allocations := [(⟨0, 10, 1, 20⟩, 1026)]
    allocatedPorts := [(1026, (some ⟨0, 10, 1, 20⟩, 0))]
    expireHeap := [(0, 1026, some ⟨0, 10, 1, 20⟩)]
    pool := [1025, 1026]
    lastPort := 0
    timeout := 180000 }

/-- Counterexample to C2 as stated: the second probed port (probe index
2 = poolSize) is unallocated, yet `alloc` of a fresh quartet raises
`"Port pool exhausted"` instead of returning it, because the code raises
whenever `tries >= poolLen` even when the last counted probe found a slot. -/
theorem c2_counterexample :
    accepts offByOneNat.incProbe offByOneNat.allocatedPorts offByOneNat.timeout 5 2 = true ∧
    2 ≤ offByOneNat.pool.length ∧
    lookupA offByOneNat.allocations ⟨0, 11, 1, 21⟩ = none ∧
    (offByOneNat.alloc ⟨0, 11, 1, 21⟩ 5 none false false).2 =
      Except.error NatErr.poolExhausted :=
  ⟨by decide, by decide, by decide, rfl⟩

/-- C2 (amended): the selection loop accepts the first probed port that is
unallocated or expired, but the exhaustion check has an off-by-one: the
call raises `"Port pool exhausted"` iff no probe among the first
`poolSize - 1` accepts (even when probe number `poolSize` or
`poolSize + 1` finds a free-or-expired slot), and it returns the port of
the first accepting probe when that probe's index is below `poolSize`.
Consequently a pool of size P all of whose ports hold live allocations
(in particular one holding P live quartets) raises on the next `alloc` of
an unmapped quartet. -/
theorem c2_probe_budget_off_by_one :
    (∀ (s : SymNat) (timeNow : Int) (peek : Bool), s.pool ≠ [] →
      ((s.nextFreePort timeNow peek).2 = Except.error NatErr.poolExhausted ↔
        ¬ ∃ k, 1 ≤ k ∧ k < s.pool.length ∧
          accepts s.incProbe s.allocatedPorts s.timeout timeNow k = true)) ∧
    (∀ (s : SymNat) (timeNow : Int) (k : Nat), s.pool ≠ [] →
      1 ≤ k → k < s.pool.length →
      accepts s.incProbe s.allocatedPorts s.timeout timeNow k = true →
      (∀ j, 1 ≤ j → j < k →
        accepts s.incProbe s.allocatedPorts s.timeout timeNow j = false) →
      (s.nextFreePort timeNow false).2 = Except.ok (s.incProbe k)) ∧
    (∀ (s : SymNat) (timeNow : Int) (q : Quartet) (tA : Option Int) (coin : Bool),
      s.pool ≠ [] →
      (∀ p ∈ s.pool, (match lookupA s.allocatedPorts p with
         | some (_, t) => ¬ (t + s.timeout < timeNow)
         | none => False)) →
      lookupA s.allocations q = none →
      (s.alloc q timeNow tA false coin).2 = Except.error NatErr.poolExhausted) := by
  have hfirst : ∀ (s : SymNat) (timeNow : Int) (k : Nat),
      1 ≤ k → k ≤ s.pool.length + 1 →
      accepts s.incProbe s.allocatedPorts s.timeout timeNow k = true →
      (∀ j, 1 ≤ j → j < k →
        accepts s.incProbe s.allocatedPorts s.timeout timeNow j = false) →
      (probeLoop s.incProbe s.timeout timeNow s.allocations s.allocatedPorts 0
         (s.pool.length + 1)).tries = k ∧
      (probeLoop s.incProbe s.timeout timeNow s.allocations s.allocatedPorts 0
         (s.pool.length + 1)).port = some (s.incProbe k) := by
    intro s timeNow k hk1 hk2 hacc hbefore
    exact probeLoop_first_accept _ _ _ _ _ 0 _ k (by omega) (by omega) hacc
      (fun j hj1 hj2 => hbefore j (by omega) hj2)
  have herror : ∀ (s : SymNat) (timeNow : Int) (peek : Bool), s.pool ≠ [] →
      ((s.nextFreePort timeNow peek).2 = Except.error NatErr.poolExhausted ↔
        ¬ ∃ k, 1 ≤ k ∧ k < s.pool.length ∧
          accepts s.incProbe s.allocatedPorts s.timeout timeNow k = true) := by
    intro s timeNow peek hpool
    have hL : 1 ≤ s.pool.length := List.length_pos.mpr hpool
    constructor
    · intro herr hex
      obtain ⟨k, hk1, hk2, hkacc⟩ := hex
      have hexnat : ∃ j, 1 ≤ j ∧
          accepts s.incProbe s.allocatedPorts s.timeout timeNow j = true := ⟨k, hk1, hkacc⟩
      set k₀ := Nat.find hexnat with hk₀def
      obtain ⟨hk₀1, hk₀acc⟩ := Nat.find_spec hexnat
      have hk₀le : k₀ ≤ k := Nat.find_le ⟨hk1, hkacc⟩
      have hbefore : ∀ j, 1 ≤ j → j < k₀ →
          accepts s.incProbe s.allocatedPorts s.timeout timeNow j = false := by
        intro j hj1 hj2
        have := Nat.find_min hexnat hj2
        simp only [not_and] at this
        simpa using this hj1
      obtain ⟨ht, hp⟩ := hfirst s timeNow k₀ hk₀1 (by omega) hk₀acc hbefore
      simp only [SymNat.nextFreePort] at herr
      rw [hp, ht] at herr
      have hlt : ¬ (k₀ ≥ s.pool.length) := by omega
      simp [hlt] at herr
      by_cases hpk : peek <;> simp [hpk] at herr
    · intro hnone
      by_cases hextra : ∃ j, 1 ≤ j ∧ j ≤ s.pool.length + 1 ∧
          accepts s.incProbe s.allocatedPorts s.timeout timeNow j = true
      · obtain ⟨j, hj1, hj2, hjacc⟩ := hextra
        have hexnat : ∃ j, 1 ≤ j ∧
            accepts s.incProbe s.allocatedPorts s.timeout timeNow j = true := ⟨j, hj1, hjacc⟩
        set k₀ := Nat.find hexnat with hk₀def
        obtain ⟨hk₀1, hk₀acc⟩ := Nat.find_spec hexnat
        have hk₀le : k₀ ≤ j := Nat.find_le ⟨hj1, hjacc⟩
        have hk₀ge : s.pool.length ≤ k₀ := by
          by_contra hcon
          exact hnone ⟨k₀, hk₀1, by omega, hk₀acc⟩
        have hbefore : ∀ i, 1 ≤ i → i < k₀ →
            accepts s.incProbe s.allocatedPorts s.timeout timeNow i = false := by
          intro i hi1 hi2
          have := Nat.find_min hexnat hi2
          simp only [not_and] at this
          simpa using this hi1
        obtain ⟨ht, hp⟩ := hfirst s timeNow k₀ hk₀1 (by omega) hk₀acc hbefore
        simp only [SymNat.nextFreePort]
        rw [hp, ht]
        have hge : k₀ ≥ s.pool.length := hk₀ge
        simp [hge]
      · have hall : ∀ j, 0 < j → j ≤ 0 + (s.pool.length + 1) →
            accepts s.incProbe s.allocatedPorts s.timeout timeNow j = false := by
          intro j hj1 hj2
          by_contra hcon
          exact hextra ⟨j, by omega, by omega, by simpa using hcon⟩
        have hout := probeLoop_no_accept s.incProbe s.timeout timeNow
          s.allocations s.allocatedPorts 0 (s.pool.length + 1) hall
        simp only [SymNat.nextFreePort]
        rw [hout]
  refine ⟨herror, ?_, ?_⟩
  · intro s timeNow k hpool hk1 hk2 hkacc hbefore
    obtain ⟨ht, hp⟩ := hfirst s timeNow k hk1 (by omega) hkacc hbefore
    simp only [SymNat.nextFreePort]
    rw [hp, ht]
    have hlt : ¬ (k ≥ s.pool.length) := by omega
    simp [hlt]
  · intro s timeNow q tA coin hpool hfull hunmapped
    have hnoacc : ¬ ∃ k, 1 ≤ k ∧ k < s.pool.length ∧
        accepts s.incProbe s.allocatedPorts s.timeout timeNow k = true := by
      rintro ⟨k, hk1, hk2, hkacc⟩
      have hL : 0 < s.pool.length := by omega
      have hmem : s.incProbe k ∈ s.pool := by
        unfold SymNat.incProbe
        rw [List.getD_eq_getElem _ _ (Nat.mod_lt _ hL)]
        exact List.getElem_mem _
      have := hfull (s.incProbe k) hmem
      unfold accepts at hkacc
      cases hl : lookupA s.allocatedPorts (s.incProbe k) with
      | none => rw [hl] at this; exact this
      | some v =>
          obtain ⟨oq, t⟩ := v
          rw [hl] at this hkacc
          simp at hkacc
          exact this hkacc
    have herr := (herror s timeNow false hpool).mpr hnoacc
    simp only [SymNat.alloc]
    rw [hunmapped]
    simp only [Bool.false_eq_true, if_false]
    cases hnf : s.nextFreePort timeNow false with
    | mk s₂ res =>
        rw [hnf] at herr
        simp only at herr
        rw [herr]

/-- A pool of size 2 whose every port holds a live quartet allocation. -/
def fullNat : SymNat :=
  { allocations := [(⟨0, 10, 1, 20⟩, 1025), (⟨0, 11, 1, 21⟩, 1026)]
    allocatedPorts := [(1025, (some ⟨0, 10, 1, 20⟩, 0)), (1026, (some ⟨0, 11, 1, 21⟩, 1))]
    expireHeap := [(0, 1025, some ⟨0, 10, 1, 20⟩), (1, 1026, some ⟨0, 11, 1, 21⟩)]
    pool := [1025, 1026]
    lastPort := 0
    timeout := 180000 }

/-- Witness for C2: the (P+1)-th live quartet on a full pool of size P = 2
raises. -/
theorem c2_probe_budget_off_by_one_witness :
    fullNat.pool ≠ [] ∧
    (∀ p ∈ fullNat.pool, (match lookupA fullNat.allocatedPorts p with
       | some (_, t) => ¬ (t + fullNat.timeout < 5)
       | none => False)) ∧
    lookupA fullNat.allocations ⟨0, 12, 1, 22⟩ = none ∧
    (fullNat.alloc ⟨0, 12, 1, 22⟩ 5 none false false).2 =
      Except.error NatErr.poolExhausted := by
  have hfull : ∀ p ∈ fullNat.pool, (match lookupA fullNat.allocatedPorts p with
      | some (_, t) => ¬ (t + fullNat.timeout < 5)
      | none => False) := by
    intro p hp
    fin_cases hp
    · show ¬ ((0 : Int) + 180000 < 5)
      decide
    · show ¬ ((1 : Int) + 180000 < 5)
      decide
  exact ⟨by decide, hfull, by decide,
    c2_probe_budget_off_by_one.2.2 fullNat 5 ⟨0, 12, 1, 22⟩ none false
      (by decide) hfull (by decide)⟩

/-!
## C3: peekNext — what is and is not mutated
-/

/-- The two tables as the probe loop's `break` leaves them when it accepts
`port`: unchanged when the slot was unallocated, both entries evicted when
it was expired. -/
def breakResult (als : List (Quartet × Int)) (aps : List (Int × (Option Quartet × Int)))
    (port : Int) : List (Quartet × Int) × List (Int × (Option Quartet × Int)) :=
  match lookupA aps port with
  | none => (als, aps)
  | some (oq, _) =>
      ((match oq with
         | some q => eraseA als q
         | none => als), eraseA aps port)

theorem probeLoop_first_accept_full (probe : Nat → Int) (timeout timeNow : Int)
    (als : List (Quartet × Int)) (aps : List (Int × (Option Quartet × Int)))
    (tries fuel k : Nat) (hk1 : tries < k) (hk2 : k ≤ tries + fuel)
    (hacc : accepts probe aps timeout timeNow k = true)
    (hbefore : ∀ j, tries < j → j < k → accepts probe aps timeout timeNow j = false) :
    probeLoop probe timeout timeNow als aps tries fuel =
      ⟨(breakResult als aps (probe k)).1, (breakResult als aps (probe k)).2,
        k, some (probe k)⟩ := by
  induction fuel generalizing tries with
  | zero => omega
  | succ n ih =>
      cases hl : lookupA aps (probe (tries + 1)) with
      | none =>
          have hk : k = tries + 1 := by
            by_contra hne
            have hb := hbefore (tries + 1) (by omega) (by omega)
            unfold accepts at hb
            rw [hl] at hb
            simp at hb
          subst hk
          simp [probeLoop, breakResult, hl]
      | some v =>
          obtain ⟨oq, t⟩ := v
          by_cases hexp : t + timeout < timeNow
          · have hk : k = tries + 1 := by
              by_contra hne
              have hb := hbefore (tries + 1) (by omega) (by omega)
              unfold accepts at hb
              rw [hl] at hb
              simp [hexp] at hb
            subst hk
            simp only [probeLoop, hl, breakResult]
            rw [if_pos hexp]
          · have hk : k ≠ tries + 1 := by
              intro he
              subst he
              unfold accepts at hacc
              rw [hl] at hacc
              simp [hexp] at hacc
            have hstep : probeLoop probe timeout timeNow als aps tries (n + 1) =
                probeLoop probe timeout timeNow als aps (tries + 1) n := by
              simp only [probeLoop, hl]
              rw [if_neg hexp]
            rw [hstep]
            exact ih (tries + 1) (by omega) (by omega)
              (fun j hj1 hj2 => hbefore j (by omega) hj2)

theorem probeLoop_break_spec (probe : Nat → Int) (timeout timeNow : Int)
    (als : List (Quartet × Int)) (aps : List (Int × (Option Quartet × Int)))
    (tries fuel : Nat)
    (h : (probeLoop probe timeout timeNow als aps tries fuel).port ≠ none) :
    ∃ k, tries < k ∧ k ≤ tries + fuel ∧
      accepts probe aps timeout timeNow k = true ∧
      (∀ j, tries < j → j < k → accepts probe aps timeout timeNow j = false) ∧
      probeLoop probe timeout timeNow als aps tries fuel =
        ⟨(breakResult als aps (probe k)).1, (breakResult als aps (probe k)).2,
          k, some (probe k)⟩ := by
  induction fuel generalizing tries with
  | zero => simp [probeLoop] at h
  | succ n ih =>
      cases hl : lookupA aps (probe (tries + 1)) with
      | none =>
          refine ⟨tries + 1, by omega, by omega, ?_, ?_, ?_⟩
          · unfold accepts
            rw [hl]
          · intro j hj1 hj2
            omega
          · simp [probeLoop, breakResult, hl]
      | some v =>
          obtain ⟨oq, t⟩ := v
          by_cases hexp : t + timeout < timeNow
          · refine ⟨tries + 1, by omega, by omega, ?_, ?_, ?_⟩
            · unfold accepts
              rw [hl]
              simpa using hexp
            · intro j hj1 hj2
              omega
            · simp only [probeLoop, hl, breakResult]
              rw [if_pos hexp]
          · have hstep : probeLoop probe timeout timeNow als aps tries (n + 1) =
                probeLoop probe timeout timeNow als aps (tries + 1) n := by
              simp only [probeLoop, hl]
              rw [if_neg hexp]
            rw [hstep] at h ⊢
            obtain ⟨k, hk1, hk2, hacc, hbefore, hres⟩ := ih (tries + 1) h
            refine ⟨k, by omega, by omega, hacc, ?_, hres⟩
            intro j hj1 hj2
            by_cases hj : j = tries + 1
            · subst hj
              unfold accepts
              rw [hl]
              simpa using hexp
            · exact hbefore j (by omega) hj2

/-- Counterexample to C3 as stated: `nextFreePort` evicts expired entries
it probes even in peek mode (`peek` only skips the cursor advance), so
`peekNext` can change the allocation table and records. -/
theorem c3_counterexample :
    (offByOneNat.peekNext 200001).2 = Except.ok 1026 ∧
    (offByOneNat.peekNext 200001).1.allocatedPorts ≠ offByOneNat.allocatedPorts ∧
    (offByOneNat.peekNext 200001).1.allocations ≠ offByOneNat.allocations :=
  ⟨rfl, by decide, by decide⟩

theorem breakResult_of_lookup_none (als : List (Quartet × Int))
    (aps : List (Int × (Option Quartet × Int))) (port : Int)
    (h : lookupA aps port = none) : breakResult als aps port = (als, aps) := by
  unfold breakResult
  rw [h]

/-- C3 (amended): `peekNext(now)` never changes the expiry heap, the cursor
or the pool, and when it returns a port, an immediately following `alloc()`
of a new unmapped quartet at the same time returns exactly that port; but
`peekNext` does perform the eviction of the expired entry it accepts
(`peek` only suppresses the cursor advance, not the `del` statements), so
the allocation table and records may shrink. -/
theorem c3_peekNext_no_cursor_heap_change_and_agrees_with_alloc :
    (∀ (s : SymNat) (timeNow : Int),
      (s.peekNext timeNow).1.expireHeap = s.expireHeap ∧
      (s.peekNext timeNow).1.lastPort = s.lastPort ∧
      (s.peekNext timeNow).1.pool = s.pool ∧
      (s.peekNext timeNow).1.timeout = s.timeout) ∧
    (∀ (s : SymNat) (timeNow : Int) (q : Quartet) (tA : Option Int) (coin : Bool) (p : Int),
      s.pool.Nodup →
      keysNodup s.allocatedPorts →
      lookupA s.allocations q = none →
      (s.peekNext timeNow).2 = Except.ok p →
      ((s.peekNext timeNow).1.alloc q timeNow tA false coin).2 = Except.ok p) := by
  constructor
  · intro s timeNow
    simp only [SymNat.peekNext, SymNat.nextFreePort]
    cases hport : (probeLoop s.incProbe s.timeout timeNow s.allocations
        s.allocatedPorts 0 (s.pool.length + 1)).port with
    | none => simp [hport]
    | some p =>
        by_cases htr : (probeLoop s.incProbe s.timeout timeNow s.allocations
            s.allocatedPorts 0 (s.pool.length + 1)).tries ≥ s.pool.length
        · simp [hport, htr]
        · simp [hport, htr]
  · intro s timeNow q tA coin p hpnodup hknodup hunm hpeek
    have hne : (probeLoop s.incProbe s.timeout timeNow s.allocations
        s.allocatedPorts 0 (s.pool.length + 1)).port ≠ none := by
      intro hnone
      simp only [SymNat.peekNext, SymNat.nextFreePort] at hpeek
      rw [hnone] at hpeek
      exact Except.noConfusion hpeek
    obtain ⟨k, hk1, hk2, hacc, hbefore, hres⟩ :=
      probeLoop_break_spec s.incProbe s.timeout timeNow s.allocations
        s.allocatedPorts 0 (s.pool.length + 1) hne
    have hkp : k < s.pool.length ∧ s.incProbe k = p := by
      simp only [SymNat.peekNext, SymNat.nextFreePort] at hpeek
      rw [hres] at hpeek
      by_cases htr : k ≥ s.pool.length
      · simp [htr] at hpeek
      · simp [htr] at hpeek
        exact ⟨by omega, hpeek⟩
    obtain ⟨hkL, hpk⟩ := hkp
    have hs1 : (s.peekNext timeNow).1 =
        { s with allocations := (breakResult s.allocations s.allocatedPorts (s.incProbe k)).1,
                 allocatedPorts := (breakResult s.allocations s.allocatedPorts (s.incProbe k)).2 } := by
      simp only [SymNat.peekNext, SymNat.nextFreePort]
      rw [hres]
      have htr : ¬ (k ≥ s.pool.length) := by omega
      simp [htr]
    -- probes before k are distinct pool slots from the k-th one
    have hprobe_ne : ∀ j, 0 < j → j < k → s.incProbe j ≠ s.incProbe k := by
      intro j hj1 hj2 heq
      have hjL : j < s.pool.length := by omega
      have hmj : (s.lastPort + j) % s.pool.length < s.pool.length :=
        Nat.mod_lt _ (by omega)
      have hmk : (s.lastPort + k) % s.pool.length < s.pool.length :=
        Nat.mod_lt _ (by omega)
      unfold SymNat.incProbe at heq
      rw [List.getD_eq_getElem _ _ hmj, List.getD_eq_getElem _ _ hmk] at heq
      have hidx : (s.lastPort + j) % s.pool.length = (s.lastPort + k) % s.pool.length :=
        (List.Nodup.getElem_inj_iff hpnodup).mp heq
      have hmodeq : j % s.pool.length = k % s.pool.length := by
        have h1 : (s.lastPort + j) % s.pool.length = (s.lastPort + k) % s.pool.length := hidx
        have h2 : (j + s.lastPort) % s.pool.length = (k + s.lastPort) % s.pool.length := by
          rw [Nat.add_comm j, Nat.add_comm k]
          exact h1
        exact Nat.ModEq.add_right_cancel' s.lastPort h2
      rw [Nat.mod_eq_of_lt hjL, Nat.mod_eq_of_lt hkL] at hmodeq
      omega
    -- the accepted slot is absent from the post-peek records
    have hfree : lookupA (breakResult s.allocations s.allocatedPorts (s.incProbe k)).2
        (s.incProbe k) = none := by
      unfold breakResult
      cases hbr : lookupA s.allocatedPorts (s.incProbe k) with
      | none => exact hbr
      | some v =>
          obtain ⟨oq, t⟩ := v
          exact lookupA_eraseA_self _ _ hknodup
    -- earlier probes keep their (live) records after the peek
    have hbefore' : ∀ j, 0 < j → j < k →
        accepts s.incProbe (breakResult s.allocations s.allocatedPorts (s.incProbe k)).2
          s.timeout timeNow j = false := by
      intro j hj1 hj2
      have hlook : lookupA (breakResult s.allocations s.allocatedPorts (s.incProbe k)).2
          (s.incProbe j) = lookupA s.allocatedPorts (s.incProbe j) := by
        unfold breakResult
        cases hbr : lookupA s.allocatedPorts (s.incProbe k) with
        | none => rfl
        | some v =>
            obtain ⟨oq, t⟩ := v
            exact lookupA_eraseA_ne _ _ _ (hprobe_ne j hj1 hj2)
      have hb := hbefore j hj1 hj2
      unfold accepts at hb ⊢
      rw [hlook]
      exact hb
    have hacc' : accepts s.incProbe
        (breakResult s.allocations s.allocatedPorts (s.incProbe k)).2
        s.timeout timeNow k = true := by
      unfold accepts
      rw [hfree]
    have hpass2 := probeLoop_first_accept_full s.incProbe s.timeout timeNow
      (breakResult s.allocations s.allocatedPorts (s.incProbe k)).1
      (breakResult s.allocations s.allocatedPorts (s.incProbe k)).2
      0 (s.pool.length + 1) k (by omega) (by omega) hacc' hbefore'
    have hbreak2 : breakResult
        (breakResult s.allocations s.allocatedPorts (s.incProbe k)).1
        (breakResult s.allocations s.allocatedPorts (s.incProbe k)).2
        (s.incProbe k) =
        ((breakResult s.allocations s.allocatedPorts (s.incProbe k)).1,
         (breakResult s.allocations s.allocatedPorts (s.incProbe k)).2) :=
      breakResult_of_lookup_none _ _ _ hfree
    have hunm' : lookupA (breakResult s.allocations s.allocatedPorts (s.incProbe k)).1
        q = none := by
      unfold breakResult
      cases hbr : lookupA s.allocatedPorts (s.incProbe k) with
      | none => exact hunm
      | some v =>
          obtain ⟨oq, t⟩ := v
          cases oq with
          | none => exact hunm
          | some q' => exact lookupA_eraseA_of_none _ _ _ hunm
    rw [hs1]
    simp only [SymNat.alloc]
    rw [hunm']
    simp only [Bool.false_eq_true, if_false]
    have hnf : SymNat.nextFreePort
        { s with allocations := (breakResult s.allocations s.allocatedPorts (s.incProbe k)).1,
                 allocatedPorts := (breakResult s.allocations s.allocatedPorts (s.incProbe k)).2 }
        timeNow false =
        ({ s with
            allocations := (breakResult s.allocations s.allocatedPorts (s.incProbe k)).1,
            allocatedPorts := (breakResult s.allocations s.allocatedPorts (s.incProbe k)).2,
            lastPort := (s.lastPort + k) % s.pool.length },
          Except.ok (s.incProbe k)) := by
      simp only [SymNat.nextFreePort]
      have hip : SymNat.incProbe
          { s with allocations := (breakResult s.allocations s.allocatedPorts (s.incProbe k)).1,
                   allocatedPorts := (breakResult s.allocations s.allocatedPorts (s.incProbe k)).2 } =
          s.incProbe := rfl
      rw [hip]
      rw [hbreak2] at hpass2
      rw [hpass2]
      have htr : ¬ (k ≥ s.pool.length) := by omega
      simp [htr]
    rw [hnf, ← hpk]

/-- Witness for the amended C3: after `peekNext` evicted the expired entry
and returned 1026, allocating a fresh quartet at the same time returns the
same port 1026. -/
theorem c3_peekNext_agrees_with_alloc_witness :
    offByOneNat.pool.Nodup ∧
    keysNodup offByOneNat.allocatedPorts ∧
    lookupA offByOneNat.allocations ⟨0, 12, 1, 22⟩ = none ∧
    (offByOneNat.peekNext 200001).2 = Except.ok 1026 ∧
    ((offByOneNat.peekNext 200001).1.alloc ⟨0, 12, 1, 22⟩ 200001 none false false).2 =
      Except.ok 1026 :=
  ⟨by decide, by unfold keysNodup; decide, by decide, rfl,
   c3_peekNext_no_cursor_heap_change_and_agrees_with_alloc.2 offByOneNat 200001
     ⟨0, 12, 1, 22⟩ none false 1026 (by decide) (by unfold keysNodup; decide)
     (by decide) rfl⟩

/-!
## C7: round-robin allocation on a fresh incremental NAT
-/

theorem lookupA_append {α β : Type} [DecidableEq α] (l₁ l₂ : List (α × β)) (a : α) :
    lookupA (l₁ ++ l₂) a =
      (match lookupA l₁ a with
       | some v => some v
       | none => lookupA l₂ a) := by
  induction l₁ with
  | nil => simp [lookupA]
  | cons e rest ih =>
      obtain ⟨k, v⟩ := e
      by_cases h : k = a
      · simp [lookupA, h]
      · simp [lookupA, h, ih]

theorem lookupA_range_map_none {α β : Type} [DecidableEq α]
    (key : Nat → α) (val : Nat → β) (i : Nat) (a : α)
    (h : ∀ j, j < i → key j ≠ a) :
    lookupA ((List.range i).map (fun j => (key j, val j))) a = none := by
  induction i with
  | zero => rfl
  | succ n ih =>
      rw [List.range_succ, List.map_append, lookupA_append,
        ih (fun j hj => h j (by omega))]
      simp [lookupA, h n (by omega)]

theorem updateA_append_of_none {α β : Type} [DecidableEq α]
    (l : List (α × β)) (a : α) (v : β) (h : lookupA l a = none) :
    updateA l a v = l ++ [(a, v)] := by
  induction l with
  | nil => rfl
  | cons e rest ih =>
      obtain ⟨k, w⟩ := e
      by_cases hk : k = a
      · simp [lookupA, hk] at h
      · simp only [lookupA, hk, if_false] at h  
        simp [updateA, hk, ih h]

theorem heapPush_append (l : List HeapEntry) (x : HeapEntry)
    (h : ∀ e ∈ l, heapKeyLE e x = true) : heapPush l x = l ++ [x] := by
  induction l with
  | nil => rfl
  | cons e rest ih =>
      rw [heapPush, if_pos (h e (by simp)), ih (fun e' he' => h e' (by simp [he']))]
      rfl

theorem cleanHeap_noop (s : SymNat) (timeNow : Int)
    (h : match s.expireHeap with
         | [] => True
         | e :: _ => e.1 + s.timeout ≥ timeNow) :
    s.cleanHeap timeNow = s := by
  cases hh : s.expireHeap with
  | nil =>
      simp only [SymNat.cleanHeap, hh, cleanHeapGo]
      rw [← hh]
  | cons e rest =>
      obtain ⟨cur, port, q⟩ := e
      rw [hh] at h
      simp only at h
      simp only [SymNat.cleanHeap, hh, cleanHeapGo]
      rw [if_pos h, ← hh]

/-- The NAT state reached after `i` round-robin allocations on a freshly
reset incremental NAT: quartet `q j` holds `pool[(j+1) % P]`, allocated at
time `t j`, and the cursor sits at `i % P`. -/
def rrState (pool : List Int) (tmo : Int) (q : Nat → Quartet) (t : Nat → Int)
    (i : Nat) : SymNat :=
  { allocations := (List.range i).map
      (fun j => (q j, pool.getD ((j + 1) % pool.length) 0))
    allocatedPorts := (List.range i).map
      (fun j => (pool.getD ((j + 1) % pool.length) 0, (some (q j), t j)))
    expireHeap := (List.range i).map
      (fun j => (t j, pool.getD ((j + 1) % pool.length) 0, some (q j)))
    pool := pool
    lastPort := i % pool.length
    timeout := tmo }

/-- One step of the round-robin run: distinct slot indices give distinct
pool ports. -/
theorem rr_index_ne (P i j : Nat) (hi : i < P) (hj : j < P) (hne : i ≠ j) :
    (i + 1) % P ≠ (j + 1) % P := by
  by_cases hiP : i + 1 = P
  · rw [hiP, Nat.mod_self]
    have hjP : j + 1 < P := by omega
    rw [Nat.mod_eq_of_lt hjP]
    omega
  · rw [Nat.mod_eq_of_lt (by omega : i + 1 < P)]
    by_cases hjP : j + 1 = P
    · rw [hjP, Nat.mod_self]
      omega
    · rw [Nat.mod_eq_of_lt (by omega : j + 1 < P)]
      omega

theorem rr_port_ne (pool : List Int) (i j : Nat) (hnd : pool.Nodup)
    (hi : i < pool.length) (hj : j < pool.length) (hne : i ≠ j) :
    pool.getD ((i + 1) % pool.length) 0 ≠ pool.getD ((j + 1) % pool.length) 0 := by
  have hmi : (i + 1) % pool.length < pool.length := Nat.mod_lt _ (by omega)
  have hmj : (j + 1) % pool.length < pool.length := Nat.mod_lt _ (by omega)
  rw [List.getD_eq_getElem _ _ hmi, List.getD_eq_getElem _ _ hmj]
  intro he
  exact rr_index_ne pool.length i j hi hj hne
    ((List.Nodup.getElem_inj_iff hnd).mp he)

/-- `alloc` of an unmapped quartet on a state whose first-probed slot is
free: returns that slot, advances the cursor by one, records the quartet
and pushes one heap entry (then possibly runs the housekeeping cleanup). -/
theorem alloc_first_probe_free (s : SymNat) (q₀ : Quartet) (now : Int) (coin : Bool)
    (hL : 2 ≤ s.pool.length)
    (hunm : lookupA s.allocations q₀ = none)
    (hfree : lookupA s.allocatedPorts (s.incProbe 1) = none) :
    s.alloc q₀ now none false coin =
      ((if coin then
          SymNat.cleanHeap
            { s with
              allocations := updateA s.allocations q₀ (s.incProbe 1),
              allocatedPorts := updateA s.allocatedPorts (s.incProbe 1) (some q₀, now),
              expireHeap := heapPush s.expireHeap (now, s.incProbe 1, some q₀),
              lastPort := (s.lastPort + 1) % s.pool.length } now
        else
          { s with
            allocations := updateA s.allocations q₀ (s.incProbe 1),
            allocatedPorts := updateA s.allocatedPorts (s.incProbe 1) (some q₀, now),
            expireHeap := heapPush s.expireHeap (now, s.incProbe 1, some q₀),
            lastPort := (s.lastPort + 1) % s.pool.length }),
        Except.ok (s.incProbe 1)) := by
  have hacc : accepts s.incProbe s.allocatedPorts s.timeout now 1 = true := by
    unfold accepts
    rw [hfree]
  have hpl := probeLoop_first_accept_full s.incProbe s.timeout now
    s.allocations s.allocatedPorts 0 (s.pool.length + 1) 1 (by omega) (by omega)
    hacc (by intro j hj1 hj2; omega)
  rw [breakResult_of_lookup_none _ _ _ hfree] at hpl
  have hnf : s.nextFreePort now false =
      ({ s with lastPort := (s.lastPort + 1) % s.pool.length },
        Except.ok (s.incProbe 1)) := by
    simp only [SymNat.nextFreePort]
    rw [hpl]
    have htr : ¬ (1 ≥ s.pool.length) := by omega
    simp [htr]
  simp only [SymNat.alloc]
  rw [hunm]
  simp only [Bool.false_eq_true, if_false]
  rw [hnf]
  rfl

theorem rrState_step (pool : List Int) (tmo : Int) (q : Nat → Quartet) (t : Nat → Int)
    (i : Nat) (coin : Bool)
    (h2 : 2 ≤ pool.length) (hnd : pool.Nodup)
    (hqinj : ∀ a b, a < pool.length → b < pool.length → q a = q b → a = b)
    (hts : ∀ a b, a < b → b < pool.length → t a < t b)
    (hspan : ∀ a b, a < pool.length → b < pool.length → ¬ (t a + tmo < t b))
    (hi : i < pool.length) :
    (rrState pool tmo q t i).alloc (q i) (t i) none false coin =
      (rrState pool tmo q t (i + 1),
        Except.ok (pool.getD ((i + 1) % pool.length) 0)) := by
  have hm1 : (i + 1) % pool.length < pool.length := Nat.mod_lt _ (by omega)
  have hip1 : (rrState pool tmo q t i).incProbe 1 =
      pool.getD ((i + 1) % pool.length) 0 := by
    unfold SymNat.incProbe rrState
    simp only
    rw [Nat.mod_add_mod, List.getD_eq_getElem _ _ hm1, List.getD_eq_getElem _ _ hm1]
  have hunm : lookupA (rrState pool tmo q t i).allocations (q i) = none := by
    apply lookupA_range_map_none
    intro j hj hqe
    have := hqinj j i (by omega) hi hqe
    omega
  have hunm' : lookupA ((List.range i).map
      (fun j => (q j, pool.getD ((j + 1) % pool.length) 0))) (q i) = none := hunm
  have hfree : lookupA (rrState pool tmo q t i).allocatedPorts
      ((rrState pool tmo q t i).incProbe 1) = none := by
    rw [hip1]
    apply lookupA_range_map_none
    intro j hj
    exact rr_port_ne pool j i hnd (by omega) hi (by omega)
  have hfree' : lookupA ((List.range i).map
      (fun j => (pool.getD ((j + 1) % pool.length) 0, (some (q j), t j))))
      (pool.getD ((i + 1) % pool.length) 0) = none := by
    rw [← hip1]
    exact hfree
  have hheap : ∀ e ∈ (List.range i).map
      (fun j => ((t j : Int), pool.getD ((j + 1) % pool.length) 0, some (q j))),
      heapKeyLE e (t i, pool.getD ((i + 1) % pool.length) 0, some (q i)) = true := by
    intro e he
    simp only [List.mem_map, List.mem_range] at he
    obtain ⟨j, hj, rfl⟩ := he
    simp only [heapKeyLE, decide_eq_true_eq]
    left
    exact hts j i hj hi
  have halloc := alloc_first_probe_free (rrState pool tmo q t i) (q i) (t i) coin
    h2 hunm hfree
  rw [halloc]
  have hs3 : ({ rrState pool tmo q t i with
      allocations := updateA (rrState pool tmo q t i).allocations (q i)
        ((rrState pool tmo q t i).incProbe 1),
      allocatedPorts := updateA (rrState pool tmo q t i).allocatedPorts
        ((rrState pool tmo q t i).incProbe 1) (some (q i), t i),
      expireHeap := heapPush (rrState pool tmo q t i).expireHeap
        (t i, (rrState pool tmo q t i).incProbe 1, some (q i)),
      lastPort := ((rrState pool tmo q t i).lastPort + 1) %
        (rrState pool tmo q t i).pool.length } : SymNat) =
      rrState pool tmo q t (i + 1) := by
    rw [hip1]
    show SymNat.mk _ _ _ _ _ _ = _
    unfold rrState
    congr 1
    · rw [updateA_append_of_none _ _ _ hunm', List.range_succ, List.map_append]
      rfl
    · rw [updateA_append_of_none _ _ _ hfree', List.range_succ, List.map_append]
      rfl
    · rw [heapPush_append _ _ hheap, List.range_succ, List.map_append]
      rfl
    · show ((i % pool.length) + 1) % pool.length = (i + 1) % pool.length
      rw [Nat.mod_add_mod]
  rw [hs3, hip1]
  have hclean : SymNat.cleanHeap (rrState pool tmo q t (i + 1)) (t i) =
      rrState pool tmo q t (i + 1) := by
    apply cleanHeap_noop
    show (match (rrState pool tmo q t (i + 1)).expireHeap with
      | [] => True
      | e :: _ => e.1 + (rrState pool tmo q t (i + 1)).timeout ≥ t i)
    unfold rrState
    simp only [List.range_succ_eq_map, List.map_cons]
    exact not_lt.mp (hspan 0 i (by omega) hi)
  by_cases hc : coin
  · rw [if_pos hc, hclean]
  · rw [if_neg hc]

/-- Sequential `alloc` calls of the engine: allocate each (quartet, time)
pair in order (with `timeAdd = None`, `refreshOnly = False`), collecting the
returned ports; the first escaping exception aborts the run. `coins` feeds
the housekeeping-cleanup draws. -/
def allocRun (s : SymNat) : List (Quartet × Int) → List Bool →
    Except NatErr (List Int × SymNat)
  | [], _ => .ok ([], s)
  | (q₀, t₀) :: rest, coins =>
      match s.alloc q₀ t₀ none false (coins.headD false) with
      | (s₁, .ok p) =>
          match allocRun s₁ rest coins.tail with
          | .ok (ps, s₂) => .ok (p :: ps, s₂)
          | .error e => .error e
      | (_, .error e) => .error e

theorem rr_run_aux (pool : List Int) (tmo : Int) (q : Nat → Quartet) (t : Nat → Int)
    (h2 : 2 ≤ pool.length) (hnd : pool.Nodup)
    (hqinj : ∀ a b, a < pool.length → b < pool.length → q a = q b → a = b)
    (hts : ∀ a b, a < b → b < pool.length → t a < t b)
    (hspan : ∀ a b, a < pool.length → b < pool.length → ¬ (t a + tmo < t b)) :
    ∀ (cnt i : Nat) (coins : List Bool), i + cnt = pool.length →
    allocRun (rrState pool tmo q t i)
        ((List.range' i cnt).map (fun j => (q j, t j))) coins =
      Except.ok ((List.range' i cnt).map
          (fun j => pool.getD ((j + 1) % pool.length) 0),
        rrState pool tmo q t pool.length) := by
  intro cnt
  induction cnt with
  | zero =>
      intro i coins hlen
      have : i = pool.length := by omega
      subst this
      rfl
  | succ n ih =>
      intro i coins hlen
      rw [List.range'_succ, List.map_cons]
      show (match (rrState pool tmo q t i).alloc (q i) (t i) none false
          (coins.headD false) with
        | (s₁, Except.ok p) =>
            (match allocRun s₁ ((List.range' (i + 1) n).map (fun j => (q j, t j)))
                coins.tail with
            | Except.ok (ps, s₂) => Except.ok (p :: ps, s₂)
            | Except.error e => Except.error e)
        | (_, Except.error e) => Except.error e) = _
      rw [rrState_step pool tmo q t i (coins.headD false) h2 hnd hqinj hts hspan
        (by omega)]
      show (match allocRun (rrState pool tmo q t (i + 1))
          ((List.range' (i + 1) n).map (fun j => (q j, t j))) coins.tail with
        | Except.ok (ps, s₂) =>
            Except.ok (pool.getD ((i + 1) % pool.length) 0 :: ps, s₂)
        | Except.error e => Except.error e) = _
      rw [ih (i + 1) coins.tail (by omega), List.map_cons]

/-- Counterexample to C7 as stated: on a freshly reset incremental NAT with
pool size P = 1, already the first allocation raises `"Port pool
exhausted"` (the probe that found the free slot is probe number
poolSize = 1, which the off-by-one exhaustion check counts as failure), so
no sequence of P distinct ports is produced. -/
theorem c7_counterexample :
    (({ allocations := [], allocatedPorts := [], expireHeap := [],
        pool := [1025], lastPort := 0, timeout := 180000 } : SymNat)).pool.length = 1 ∧
    (({ allocations := [], allocatedPorts := [], expireHeap := [],
        pool := [1025], lastPort := 0, timeout := 180000 } : SymNat)).alloc
        ⟨0, 10, 1, 20⟩ 0 none false false =
      ({ allocations := [], allocatedPorts := [], expireHeap := [],
         pool := [1025], lastPort := 0, timeout := 180000 }, Except.error NatErr.poolExhausted) :=
  ⟨rfl, rfl⟩

/-- C7 (amended, P ≥ 2): on a freshly reset incremental NAT with pool size
P ≥ 2 (`rrState … 0` is exactly the reset state), allocating P pairwise
distinct quartets at strictly increasing timestamps, all within the
timeout, succeeds and yields the ports `pool[(i+1) % P]` for
i = 0, …, P-1 — the round-robin cursor order, one slot further per
allocation, wrapping modulo P — which are pairwise distinct and all lie in
the pool. -/
theorem c7_round_robin (pool : List Int) (tmo : Int) (q : Nat → Quartet)
    (t : Nat → Int) (coins : List Bool)
    (h2 : 2 ≤ pool.length) (hnd : pool.Nodup)
    (hqinj : ∀ a b, a < pool.length → b < pool.length → q a = q b → a = b)
    (hts : ∀ a b, a < b → b < pool.length → t a < t b)
    (hspan : ∀ a b, a < pool.length → b < pool.length → ¬ (t a + tmo < t b)) :
    rrState pool tmo q t 0 =
      { allocations := [], allocatedPorts := [], expireHeap := [],
        pool := pool, lastPort := 0, timeout := tmo } ∧
    allocRun (rrState pool tmo q t 0)
        ((List.range pool.length).map (fun j => (q j, t j))) coins =
      Except.ok ((List.range pool.length).map
          (fun j => pool.getD ((j + 1) % pool.length) 0),
        rrState pool tmo q t pool.length) ∧
    ((List.range pool.length).map
        (fun j => pool.getD ((j + 1) % pool.length) 0)).Nodup ∧
    (∀ p ∈ (List.range pool.length).map
        (fun j => pool.getD ((j + 1) % pool.length) 0), p ∈ pool) := by
  refine ⟨?_, ?_, ?_, ?_⟩
  · unfold rrState
    rfl
  · have h := rr_run_aux pool tmo q t h2 hnd hqinj hts hspan pool.length 0 coins
      (by omega)
    rw [List.range_eq_range']
    exact h
  · apply List.Nodup.map_on ?_ (List.nodup_range _)
    intro x hx y hy hf
    simp only [List.mem_range] at hx hy
    by_contra hne
    exact rr_port_ne pool x y hnd hx hy hne hf
  · intro p hp
    simp only [List.mem_map, List.mem_range] at hp
    obtain ⟨j, hj, rfl⟩ := hp
    have hm : (j + 1) % pool.length < pool.length := Nat.mod_lt _ (by omega)
    rw [List.getD_eq_getElem _ _ hm]
    exact List.getElem_mem hm

/-- Witness for the amended C7: pool of size 3, three distinct quartets at
times 0, 1, 2, yielding ports 1026, 1027, 1025 in round-robin order. -/
theorem c7_round_robin_witness :
    2 ≤ ([1025, 1026, 1027] : List Int).length ∧
    ([1025, 1026, 1027] : List Int).Nodup ∧
    allocRun (rrState [1025, 1026, 1027] 180000
        (fun j => ⟨0, 10 + j, 1, 20⟩) (fun j => (j : Int)) 0)
        ((List.range 3).map (fun j => ((⟨0, 10 + j, 1, 20⟩ : Quartet), (j : Int)))) [] =
      Except.ok ([1026, 1027, 1025],
        rrState [1025, 1026, 1027] 180000
          (fun j => ⟨0, 10 + j, 1, 20⟩) (fun j => (j : Int)) 3) := by
  refine ⟨by decide, by decide, ?_⟩
  have h := (c7_round_robin [1025, 1026, 1027] 180000
      (fun j => ⟨0, 10 + j, 1, 20⟩) (fun j => (j : Int)) []
      (by decide) (by decide)
      (by
        intro a b _ _ hq
        have : (10 : Int) + a = 10 + b := congrArg Quartet.srcPort hq
        omega)
      (by
        intro a b hab _
        show (a : Int) < (b : Int)
        exact_mod_cast hab)
      (by
        intro a b ha hb
        simp only [List.length_cons, List.length_nil] at ha hb
        show ¬ ((a : Int) + 180000 < (b : Int))
        omega)).2.1
  exact h

/-!
## C10: the bidirectional-map invariant
-/

/-- The bidirectional-map invariant on the two tables: keys are unique (as
in any Python dict), every quartet-to-port entry has a matching named
record, and every named record has a matching quartet-to-port entry.
Anonymous records can then never be reached from the quartet table. -/
def InvMaps (als : List (Quartet × Int))
    (aps : List (Int × (Option Quartet × Int))) : Prop :=
  keysNodup als ∧ keysNodup aps ∧
  (∀ q p, lookupA als q = some p → ∃ t, lookupA aps p = some (some q, t)) ∧
  (∀ p q t, lookupA aps p = some (some q, t) → lookupA als q = some p)

def SymNat.Inv (s : SymNat) : Prop := InvMaps s.allocations s.allocatedPorts

/-- Evicting one allocation record (and, when named, its table entry)
preserves the invariant. -/
theorem invMaps_evict (als : List (Quartet × Int))
    (aps : List (Int × (Option Quartet × Int))) (p : Int) (oq : Option Quartet) (t : Int)
    (hinv : InvMaps als aps) (hrec : lookupA aps p = some (oq, t)) :
    InvMaps (match oq with
             | some q' => eraseA als q'
             | none => als) (eraseA aps p) := by
  obtain ⟨h1, h2, hdir1, hdir2⟩ := hinv
  refine ⟨?_, keysNodup_eraseA _ _ h2, ?_, ?_⟩
  · cases oq with
    | none => exact h1
    | some q₀ => exact keysNodup_eraseA _ _ h1
  · intro q' p' hq'
    have hals : lookupA als q' = some p' ∧ (∀ q₀, oq = some q₀ → q' ≠ q₀) := by
      cases oq with
      | none => exact ⟨hq', by intro q₀ h; exact absurd h (by simp)⟩
      | some q₀ =>
          by_cases hqe : q' = q₀
          · subst hqe
            rw [lookupA_eraseA_self _ _ h1] at hq'
            exact absurd hq' (by simp)
          · rw [lookupA_eraseA_ne _ _ _ hqe] at hq'
            exact ⟨hq', by intro q₁ h₁ h₂; injection h₁ with h₁; exact hqe (h₂.trans h₁.symm) ⟩
    obtain ⟨hals, hne⟩ := hals
    obtain ⟨t', ht'⟩ := hdir1 q' p' hals
    have hpne : p' ≠ p := by
      intro he
      subst he
      rw [ht'] at hrec
      injection hrec with hrec
      injection hrec with hq ht
      cases oq with
      | none => exact Option.noConfusion hq
      | some q₀ =>
          injection hq with hq
          exact hne q₀ rfl hq
    exact ⟨t', by rw [lookupA_eraseA_ne _ _ _ hpne]; exact ht'⟩
  · intro p' q' t' hp'
    have hpne : p' ≠ p := by
      intro he
      subst he
      rw [lookupA_eraseA_self _ _ h2] at hp'
      exact Option.noConfusion hp'
    rw [lookupA_eraseA_ne _ _ _ hpne] at hp'
    have hals := hdir2 p' q' t' hp'
    cases oq with
    | none => exact hals
    | some q₀ =>
        have hqe : q' ≠ q₀ := by
          intro he
          subst he
          have := hdir2 p q' t (by rw [hrec])
          rw [this] at hals
          injection hals with hals
          exact hpne hals.symm
        rw [lookupA_eraseA_ne _ _ _ hqe]
        exact hals

/-- Creating a fresh named allocation on a free port for an unmapped
quartet preserves the invariant. -/
theorem invMaps_insert_named (als : List (Quartet × Int))
    (aps : List (Int × (Option Quartet × Int))) (q : Quartet) (p timeAdd : Int)
    (hinv : InvMaps als aps)
    (hq : lookupA als q = none) (hp : lookupA aps p = none) :
    InvMaps (updateA als q p) (updateA aps p (some q, timeAdd)) := by
  obtain ⟨h1, h2, hdir1, hdir2⟩ := hinv
  refine ⟨keysNodup_updateA _ _ _ h1, keysNodup_updateA _ _ _ h2, ?_, ?_⟩
  · intro q' p' hq'
    by_cases hqe : q' = q
    · subst hqe
      rw [lookupA_updateA_self] at hq'
      injection hq' with hq'
      subst hq'
      exact ⟨timeAdd, lookupA_updateA_self _ _ _⟩
    · rw [lookupA_updateA_ne _ _ _ _ hqe] at hq'
      obtain ⟨t', ht'⟩ := hdir1 q' p' hq'
      have hpne : p' ≠ p := by
        intro he
        subst he
        rw [ht'] at hp
        exact Option.noConfusion hp
      exact ⟨t', by rw [lookupA_updateA_ne _ _ _ _ hpne]; exact ht'⟩
  · intro p' q' t' hp'
    by_cases hpe : p' = p
    · subst hpe
      rw [lookupA_updateA_self] at hp'
      injection hp' with hp'
      injection hp' with hq' ht'
      injection hq' with hq'
      subst hq'
      rw [lookupA_updateA_self]
    · rw [lookupA_updateA_ne _ _ _ _ hpe] at hp'
      have hals := hdir2 p' q' t' hp'
      have hqe : q' ≠ q := by
        intro he
        subst he
        rw [hals] at hq
        exact Option.noConfusion hq
      rw [lookupA_updateA_ne _ _ _ _ hqe]
      exact hals

/-- Creating an anonymous allocation on a free port preserves the
invariant. -/
theorem invMaps_insert_anon (als : List (Quartet × Int))
    (aps : List (Int × (Option Quartet × Int))) (p timeNow : Int)
    (hinv : InvMaps als aps) (hp : lookupA aps p = none) :
    InvMaps als (updateA aps p (none, timeNow)) := by
  obtain ⟨h1, h2, hdir1, hdir2⟩ := hinv
  refine ⟨h1, keysNodup_updateA _ _ _ h2, ?_, ?_⟩
  · intro q' p' hq'
    obtain ⟨t', ht'⟩ := hdir1 q' p' hq'
    have hpne : p' ≠ p := by
      intro he
      subst he
      rw [ht'] at hp
      exact Option.noConfusion hp
    exact ⟨t', by rw [lookupA_updateA_ne _ _ _ _ hpne]; exact ht'⟩
  · intro p' q' t' hp'
    by_cases hpe : p' = p
    · subst hpe
      rw [lookupA_updateA_self] at hp'
      injection hp' with hp'
      injection hp' with hq' ht'
      exact Option.noConfusion hq'
    · rw [lookupA_updateA_ne _ _ _ _ hpe] at hp'
      exact hdir2 p' q' t' hp'

/-- Refreshing the record of a live mapped quartet preserves the
invariant. -/
theorem invMaps_refresh (als : List (Quartet × Int))
    (aps : List (Int × (Option Quartet × Int))) (q : Quartet) (p timeAdd : Int)
    (hinv : InvMaps als aps) (hq : lookupA als q = some p) :
    InvMaps als (updateA aps p (some q, timeAdd)) := by
  obtain ⟨h1, h2, hdir1, hdir2⟩ := hinv
  refine ⟨h1, keysNodup_updateA _ _ _ h2, ?_, ?_⟩
  · intro q' p' hq'
    by_cases hpe : p' = p
    · obtain ⟨t', ht'⟩ := hdir1 q' p' hq'
      obtain ⟨t₀, ht₀⟩ := hdir1 q p hq
      rw [hpe] at ht' ⊢
      rw [ht₀] at ht'
      injection ht' with ht'
      injection ht' with hq₀ _
      injection hq₀ with hq₀
      subst hq₀
      exact ⟨timeAdd, lookupA_updateA_self _ _ _⟩
    · obtain ⟨t', ht'⟩ := hdir1 q' p' hq'
      exact ⟨t', by rw [lookupA_updateA_ne _ _ _ _ hpe]; exact ht'⟩
  · intro p' q' t' hp'
    by_cases hpe : p' = p
    · subst hpe
      rw [lookupA_updateA_self] at hp'
      injection hp' with hp'
      injection hp' with hq' _
      injection hq' with hq'
      subst hq'
      exact hq
    · rw [lookupA_updateA_ne _ _ _ _ hpe] at hp'
      exact hdir2 p' q' t' hp'

theorem probeLoop_invMaps (probe : Nat → Int) (timeout timeNow : Int)
    (als : List (Quartet × Int)) (aps : List (Int × (Option Quartet × Int)))
    (tries fuel : Nat) (hinv : InvMaps als aps) :
    InvMaps (probeLoop probe timeout timeNow als aps tries fuel).als
      (probeLoop probe timeout timeNow als aps tries fuel).aps := by
  induction fuel generalizing tries with
  | zero => exact hinv
  | succ n ih =>
      cases hl : lookupA aps (probe (tries + 1)) with
      | none => simpa [probeLoop, hl] using hinv
      | some v =>
          obtain ⟨oq, t⟩ := v
          by_cases hexp : t + timeout < timeNow
          · cases oq with
            | none =>
                have heq : probeLoop probe timeout timeNow als aps tries (n + 1) =
                    ⟨als, eraseA aps (probe (tries + 1)),
                      tries + 1, some (probe (tries + 1))⟩ := by
                  simp only [probeLoop, hl]
                  rw [if_pos hexp]
                rw [heq]
                exact invMaps_evict als aps (probe (tries + 1)) none t hinv hl
            | some q₀ =>
                have heq : probeLoop probe timeout timeNow als aps tries (n + 1) =
                    ⟨eraseA als q₀, eraseA aps (probe (tries + 1)),
                      tries + 1, some (probe (tries + 1))⟩ := by
                  simp only [probeLoop, hl]
                  rw [if_pos hexp]
                rw [heq]
                exact invMaps_evict als aps (probe (tries + 1)) (some q₀) t hinv hl
          · have heq : probeLoop probe timeout timeNow als aps tries (n + 1) =
                probeLoop probe timeout timeNow als aps (tries + 1) n := by
              simp only [probeLoop, hl]
              rw [if_neg hexp]
            rw [heq]
            exact ih (tries + 1)

theorem probeLoop_als_none (probe : Nat → Int) (timeout timeNow : Int)
    (als : List (Quartet × Int)) (aps : List (Int × (Option Quartet × Int)))
    (tries fuel : Nat) (q : Quartet) (h : lookupA als q = none) :
    lookupA (probeLoop probe timeout timeNow als aps tries fuel).als q = none := by
  induction fuel generalizing tries with
  | zero => exact h
  | succ n ih =>
      cases hl : lookupA aps (probe (tries + 1)) with
      | none => simpa [probeLoop, hl] using h
      | some v =>
          obtain ⟨oq, t⟩ := v
          by_cases hexp : t + timeout < timeNow
          · cases oq with
            | none =>
                have heq : probeLoop probe timeout timeNow als aps tries (n + 1) =
                    ⟨als, eraseA aps (probe (tries + 1)),
                      tries + 1, some (probe (tries + 1))⟩ := by
                  simp only [probeLoop, hl]
                  rw [if_pos hexp]
                rw [heq]
                exact h
            | some q₀ =>
                have heq : probeLoop probe timeout timeNow als aps tries (n + 1) =
                    ⟨eraseA als q₀, eraseA aps (probe (tries + 1)),
                      tries + 1, some (probe (tries + 1))⟩ := by
                  simp only [probeLoop, hl]
                  rw [if_pos hexp]
                rw [heq]
                exact lookupA_eraseA_of_none _ _ _ h
          · have heq : probeLoop probe timeout timeNow als aps tries (n + 1) =
                probeLoop probe timeout timeNow als aps (tries + 1) n := by
              simp only [probeLoop, hl]
              rw [if_neg hexp]
            rw [heq]
            exact ih (tries + 1)

theorem probeLoop_break_free (probe : Nat → Int) (timeout timeNow : Int)
    (als : List (Quartet × Int)) (aps : List (Int × (Option Quartet × Int)))
    (tries fuel : Nat) (p : Int) (h2 : keysNodup aps)
    (hport : (probeLoop probe timeout timeNow als aps tries fuel).port = some p) :
    lookupA (probeLoop probe timeout timeNow als aps tries fuel).aps p = none := by
  induction fuel generalizing tries with
  | zero => exact absurd hport (by simp [probeLoop])
  | succ n ih =>
      cases hl : lookupA aps (probe (tries + 1)) with
      | none =>
          have heq : probeLoop probe timeout timeNow als aps tries (n + 1) =
              ⟨als, aps, tries + 1, some (probe (tries + 1))⟩ := by
            simp [probeLoop, hl]
          rw [heq] at hport ⊢
          simp only at hport ⊢
          injection hport with hport
          rw [← hport]
          exact hl
      | some v =>
          obtain ⟨oq, t⟩ := v
          by_cases hexp : t + timeout < timeNow
          · cases oq with
            | none =>
                have heq : probeLoop probe timeout timeNow als aps tries (n + 1) =
                    ⟨als, eraseA aps (probe (tries + 1)),
                      tries + 1, some (probe (tries + 1))⟩ := by
                  simp only [probeLoop, hl]
                  rw [if_pos hexp]
                rw [heq] at hport ⊢
                simp only at hport ⊢
                injection hport with hport
                rw [← hport]
                exact lookupA_eraseA_self _ _ h2
            | some q₀ =>
                have heq : probeLoop probe timeout timeNow als aps tries (n + 1) =
                    ⟨eraseA als q₀, eraseA aps (probe (tries + 1)),
                      tries + 1, some (probe (tries + 1))⟩ := by
                  simp only [probeLoop, hl]
                  rw [if_pos hexp]
                rw [heq] at hport ⊢
                simp only at hport ⊢
                injection hport with hport
                rw [← hport]
                exact lookupA_eraseA_self _ _ h2
          · have heq : probeLoop probe timeout timeNow als aps tries (n + 1) =
                probeLoop probe timeout timeNow als aps (tries + 1) n := by
              simp only [probeLoop, hl]
              rw [if_neg hexp]
            rw [heq] at hport ⊢
            exact ih (tries + 1) hport

theorem cleanHeapGo_invMaps (timeout timeNow : Int) (heap : List HeapEntry)
    (als : List (Quartet × Int)) (aps : List (Int × (Option Quartet × Int)))
    (hinv : InvMaps als aps) :
    InvMaps (cleanHeapGo timeout timeNow heap als aps).1
      (cleanHeapGo timeout timeNow heap als aps).2.1 := by
  induction heap generalizing als aps with
  | nil => exact hinv
  | cons e rest ih =>
      obtain ⟨cur, port, qe⟩ := e
      by_cases hlive : cur + timeout ≥ timeNow
      · simpa [cleanHeapGo, hlive] using hinv
      · by_cases hmatch : lookupA aps port = some (qe, cur)
        · cases qe with
          | none =>
              have heq : cleanHeapGo timeout timeNow ((cur, port, none) :: rest) als aps =
                  cleanHeapGo timeout timeNow rest als (eraseA aps port) := by
                simp [cleanHeapGo, hlive, hmatch]
              rw [heq]
              exact ih _ _ (invMaps_evict als aps port none cur hinv hmatch)
          | some q₀ =>
              have heq : cleanHeapGo timeout timeNow
                  ((cur, port, some q₀) :: rest) als aps =
                  cleanHeapGo timeout timeNow rest (eraseA als q₀) (eraseA aps port) := by
                simp [cleanHeapGo, hlive, hmatch]
              rw [heq]
              exact ih _ _ (invMaps_evict als aps port (some q₀) cur hinv hmatch)
        · have heq : cleanHeapGo timeout timeNow ((cur, port, qe) :: rest) als aps =
              cleanHeapGo timeout timeNow rest als aps := by
            simp [cleanHeapGo, hlive, hmatch]
          rw [heq]
          exact ih _ _ hinv

theorem cleanHeap_inv (s : SymNat) (timeNow : Int) (h : s.Inv) :
    (s.cleanHeap timeNow).Inv := by
  unfold SymNat.Inv at *
  exact cleanHeapGo_invMaps s.timeout timeNow s.expireHeap s.allocations
    s.allocatedPorts h

theorem nextFreePort_facts (s : SymNat) (timeNow : Int) (peek : Bool) (hinv : s.Inv) :
    (s.nextFreePort timeNow peek).1.Inv ∧
    (∀ p, (s.nextFreePort timeNow peek).2 = Except.ok p →
      lookupA (s.nextFreePort timeNow peek).1.allocatedPorts p = none) ∧
    (∀ q, lookupA s.allocations q = none →
      lookupA (s.nextFreePort timeNow peek).1.allocations q = none) := by
  have hploop := probeLoop_invMaps s.incProbe s.timeout timeNow s.allocations
    s.allocatedPorts 0 (s.pool.length + 1) hinv
  have halsnone := fun q hq => probeLoop_als_none s.incProbe s.timeout timeNow
    s.allocations s.allocatedPorts 0 (s.pool.length + 1) q hq
  simp only [SymNat.nextFreePort]
  cases hport : (probeLoop s.incProbe s.timeout timeNow s.allocations
      s.allocatedPorts 0 (s.pool.length + 1)).port with
  | none =>
      dsimp only
      refine ⟨hploop, ?_, ?_⟩
      · intro p hp
        exact absurd hp (by simp)
      · intro q hq
        exact halsnone q hq
  | some p₀ =>
      dsimp only
      have hfree := probeLoop_break_free s.incProbe s.timeout timeNow s.allocations
        s.allocatedPorts 0 (s.pool.length + 1) p₀ hinv.2.1 hport
      by_cases htr : (probeLoop s.incProbe s.timeout timeNow s.allocations
          s.allocatedPorts 0 (s.pool.length + 1)).tries ≥ s.pool.length
      · rw [if_pos htr]
        refine ⟨hploop, ?_, ?_⟩
        · intro p hp
          exact absurd hp (by simp)
        · intro q hq
          exact halsnone q hq
      · rw [if_neg htr]
        cases peek with
        | true =>
            rw [if_pos rfl]
            refine ⟨hploop, ?_, ?_⟩
            · intro p hp
              simp only at hp
              injection hp with hp
              rw [← hp]
              exact hfree
            · intro q hq
              exact halsnone q hq
        | false =>
            rw [if_neg (by simp)]
            refine ⟨hploop, ?_, ?_⟩
            · intro p hp
              simp only at hp
              injection hp with hp
              rw [← hp]
              exact hfree
            · intro q hq
              exact halsnone q hq

theorem alloc_unmapped_inv (s : SymNat) (q : Quartet) (now : Int) (tA : Option Int)
    (ro coin : Bool) (hinv : s.Inv) (hm : lookupA s.allocations q = none) :
    (s.alloc q now tA ro coin).1.Inv := by
  simp only [SymNat.alloc]
  rw [hm]
  dsimp only
  by_cases hro : ro
  · rw [if_pos (by simp [hro])]
    exact hinv
  · rw [if_neg (by simp [hro])]
    cases hnf : s.nextFreePort now false with
    | mk s₂ res =>
        have hfacts := nextFreePort_facts s now false hinv
        rw [hnf] at hfacts
        cases res with
        | error e => exact hfacts.1
        | ok p =>
            dsimp only
            have hinsert := invMaps_insert_named s₂.allocations s₂.allocatedPorts
              q p (tA.getD now) hfacts.1 (hfacts.2.2 q hm) (hfacts.2.1 p rfl)
            cases coin with
            | false => exact hinsert
            | true =>
                rw [if_pos rfl]
                exact cleanHeap_inv _ now hinsert

theorem alloc_expired_eq (s : SymNat) (q : Quartet) (now : Int) (tA : Option Int)
    (ro coin : Bool) (port t₀ : Int)
    (h1 : keysNodup s.allocations)
    (hm : lookupA s.allocations q = some port)
    (hrec : lookupA s.allocatedPorts port = some (some q, t₀))
    (hexp : t₀ + s.timeout < now) :
    s.alloc q now tA ro coin =
      SymNat.alloc
        { s with allocations := eraseA s.allocations q,
                 allocatedPorts := eraseA s.allocatedPorts port }
        q now tA ro coin := by
  conv_lhs => simp only [SymNat.alloc]
  rw [hm]
  dsimp only
  rw [hrec]
  dsimp only
  rw [if_pos hexp]
  conv_rhs => simp only [SymNat.alloc]
  rw [show lookupA (eraseA s.allocations q) q = none from
    lookupA_eraseA_self _ _ h1]

theorem c10_helper_occupy (s : SymNat) (n : Nat) (now : Int) (hinv : s.Inv) :
    (s.occupy n now).1.Inv := by
  induction n generalizing s with
  | zero => exact hinv
  | succ m ih =>
      simp only [SymNat.occupy]
      cases hnf : s.nextFreePort now false with
      | mk s₂ res =>
          have hfacts := nextFreePort_facts s now false hinv
          rw [hnf] at hfacts
          cases res with
          | error e => exact hfacts.1
          | ok p =>
              dsimp only
              exact ih _ (invMaps_insert_anon s₂.allocations s₂.allocatedPorts p now
                hfacts.1 (hfacts.2.1 p rfl))

/-- C10: every NAT operation (`reset`, `alloc`, `occupy`, `cleanHeap`,
`trulyFreePorts`, `peekNext`) preserves the bidirectional-map invariant
(`reset` establishes it outright); under the invariant, an anonymous
(no-quartet) record can never be reached from the quartet-to-port table. -/
theorem c10_bidirectional_invariant :
    (∀ s : SymNat, (s.reset).Inv) ∧
    (∀ (s : SymNat) (q : Quartet) (now : Int) (tA : Option Int) (ro coin : Bool),
      s.Inv → (s.alloc q now tA ro coin).1.Inv) ∧
    (∀ (s : SymNat) (n : Nat) (now : Int), s.Inv → (s.occupy n now).1.Inv) ∧
    (∀ (s : SymNat) (now : Int), s.Inv → (s.cleanHeap now).Inv) ∧
    (∀ (s : SymNat) (now : Int), s.Inv → (s.trulyFreePorts now).1.Inv) ∧
    (∀ (s : SymNat) (now : Int), s.Inv → (s.peekNext now).1.Inv) ∧
    (∀ (s : SymNat) (p t : Int) (q : Quartet), s.Inv →
      lookupA s.allocatedPorts p = some (none, t) →
      lookupA s.allocations q ≠ some p) := by
  refine ⟨?_, ?_, ?_, ?_, ?_, ?_, ?_⟩
  · intro s
    refine ⟨List.nodup_nil, List.nodup_nil, ?_, ?_⟩
    · intro q p h
      exact absurd h (by simp [SymNat.reset, lookupA])
    · intro p q t h
      exact absurd h (by simp [SymNat.reset, lookupA])
  · intro s q now tA ro coin hinv
    cases hm : lookupA s.allocations q with
    | none => exact alloc_unmapped_inv s q now tA ro coin hinv hm
    | some port =>
        obtain ⟨h1, h2, hdir1, hdir2⟩ := hinv
        obtain ⟨t₀, ht₀⟩ := hdir1 q port hm
        by_cases hexp : t₀ + s.timeout < now
        · rw [alloc_expired_eq s q now tA ro coin port t₀ h1 hm ht₀ hexp]
          have hinv1 : InvMaps (eraseA s.allocations q) (eraseA s.allocatedPorts port) :=
            invMaps_evict s.allocations s.allocatedPorts port (some q) t₀
              ⟨h1, h2, hdir1, hdir2⟩ ht₀
          exact alloc_unmapped_inv _ q now tA ro coin hinv1
            (lookupA_eraseA_self _ _ h1)
        · have halloc : s.alloc q now tA ro coin =
              ({ s with allocatedPorts :=
                  updateA s.allocatedPorts port (some q, tA.getD now) },
                Except.ok port) := by
            simp only [SymNat.alloc]
            rw [hm]
            dsimp only
            rw [ht₀]
            dsimp only
            rw [if_neg hexp]
          rw [halloc]
          exact invMaps_refresh s.allocations s.allocatedPorts q port (tA.getD now)
            ⟨h1, h2, hdir1, hdir2⟩ hm
  · intro s n now hinv
    exact c10_helper_occupy s n now hinv
  · intro s now hinv
    exact cleanHeap_inv s now hinv
  · intro s now hinv
    exact cleanHeap_inv s now hinv
  · intro s now hinv
    exact (nextFreePort_facts s now true hinv).1
  · intro s p t q hinv hanon hals
    obtain ⟨t', ht'⟩ := hinv.2.2.1 q p hals
    rw [hanon] at ht'
    injection ht' with ht'
    injection ht' with hq' _
    exact Option.noConfusion hq'

/-- Witness for C10: the empty freshly-initialized NAT satisfies the
invariant and an `occupy` on it preserves it. -/
theorem c10_bidirectional_invariant_witness :
    SymNat.init.Inv ∧ (SymNat.init.occupy 2 0).1.Inv := by
  have hinit : SymNat.init.Inv := by
    refine ⟨List.nodup_nil, List.nodup_nil, ?_, ?_⟩
    · intro q p h
      exact absurd h (by simp [SymNat.init, lookupA])
    · intro p q t h
      exact absurd h (by simp [SymNat.init, lookupA])
  exact ⟨hinit, c10_bidirectional_invariant.2.2.1 SymNat.init 2 0 hinit⟩
